import Mathlib

/-!
Verification development for the cmpm-121-demo-3 geocoin game.

The embedding models, from `src/main.ts` and `src/board.ts`:
  * cells, coins and caches, with the coin-id and storage-key string formats;
  * the memento (snapshot) serialization `toMomento` / `fromMomento`
    (`JSON.stringify` / `JSON.parse` restricted to the snapshot format the
    program itself produces);
  * `localStorage` as an association list of string key/value pairs;
  * `spawnCache`, the memento scan of `updateVisibleCaches`, and the coin
    transfer operations `collectCoin`, `collectAll`, `depositCoin` together
    with `refreshMemento`;
  * the `Board` class with its interning registry, modelled with explicit
    allocation tags so that JavaScript reference identity is expressible.

Geographic coordinates and the values of the deterministic generator `luck`
are modelled as exact rationals.  `luck` itself (file `src/luck.ts`, not part
of the sources) appears only as a function parameter `luck : String → ℚ`,
so every theorem quantifies over all possible generators.  Multiplication of
a rational by a constant is implemented on numerator/denominator form
(`mulByNat`) so that it evaluates by kernel reduction; `mulByNat_eq` proves
it equal to ordinary multiplication.
-/

deriving instance DecidableEq for Except

namespace Game

/-- Error raised by the modelled `JSON.parse`: a thrown JavaScript exception.
`badShape` models a parsed snapshot that lacks the `coins` or `cell` field
(JavaScript would store `undefined` in the cache; no theorem exercises that
corner, and the program itself never produces such snapshots). -/
inductive JErr where
  | parse
  | badShape
deriving DecidableEq

/-- A grid cell, `interface Cell` of `board.ts`: a pair of integers. -/
structure Cell where
  i : Int
  j : Int
deriving DecidableEq

/-- A coin, `interface Coin` of `main.ts`: identified by its id string. -/
structure Coin where
  id : String
deriving DecidableEq

/-- In-memory cache entity, `interface Cache` of `main.ts` without the
rendering handle (`marker`) and with the methods modelled as free
functions. -/
structure MCache where
  cell : Cell
  coins : List Coin
deriving DecidableEq

/-- Decimal digits of `n`, most significant first, with explicit fuel so the
function evaluates by kernel reduction.  Models JavaScript number-to-string
conversion for the integers the program manipulates. -/
def natChars : Nat → Nat → List Char
  | 0, _ => []
  | f + 1, n =>
      if n < 10 then [Nat.digitChar n]
      else natChars f (n / 10) ++ [Nat.digitChar (n % 10)]

/-- Decimal representation of an integer, as in a JavaScript template
string. -/
def intChars (i : Int) : List Char :=
  if i < 0 then '-' :: natChars (i.natAbs + 1) i.natAbs
  else natChars (i.natAbs + 1) i.natAbs

/-- Value of a list of decimal digit characters. -/
def charsVal (cs : List Char) : Nat :=
  cs.foldl (fun a c => 10 * a + (c.toNat - 48)) 0

theorem digitChar_toNat {m : Nat} (h : m < 10) : (Nat.digitChar m).toNat - 48 = m := by
  revert h
  revert m
  decide

theorem digitChar_isDigit {m : Nat} (h : m < 10) : (Nat.digitChar m).isDigit = true := by
  revert h
  revert m
  decide

theorem natChars_stable (n : Nat) : ∀ f, n ≤ f → natChars (f + 1) n = natChars (n + 1) n := by
  induction n using Nat.strong_induction_on with
  | _ n ih =>
    intro f hf
    by_cases h10 : n < 10
    · unfold natChars
      simp [h10]
    · have hd : n / 10 < n := Nat.div_lt_self (by omega) (by omega)
      obtain ⟨f', rfl⟩ : ∃ f', f = f' + 1 := ⟨f - 1, by omega⟩
      obtain ⟨n', hn⟩ : ∃ n', n = n' + 1 := ⟨n - 1, by omega⟩
      have hstep : ∀ g, natChars (g + 1 + 1) n
          = natChars (g + 1) (n / 10) ++ [Nat.digitChar (n % 10)] := by
        intro g
        rw [natChars, if_neg h10]
      rw [hstep f']
      conv_rhs => rw [show n + 1 = n' + 1 + 1 by omega]
      rw [hstep n']
      rw [ih (n / 10) hd f' (by omega), ih (n / 10) hd n' (by omega)]

theorem charsVal_append (xs : List Char) (d : Char) :
    charsVal (xs ++ [d]) = 10 * charsVal xs + (d.toNat - 48) := by
  unfold charsVal
  rw [List.foldl_append]
  rfl

theorem natChars_val (n : Nat) : ∀ f, n ≤ f → charsVal (natChars (f + 1) n) = n := by
  induction n using Nat.strong_induction_on with
  | _ n ih =>
    intro f hf
    by_cases h10 : n < 10
    · rw [natChars, if_pos h10]
      show 10 * 0 + ((Nat.digitChar n).toNat - 48) = n
      rw [digitChar_toNat h10]
      omega
    · have hd : n / 10 < n := Nat.div_lt_self (by omega) (by omega)
      obtain ⟨f', rfl⟩ : ∃ f', f = f' + 1 := ⟨f - 1, by omega⟩
      rw [natChars, if_neg h10, charsVal_append]
      rw [ih (n / 10) hd f' (by omega), digitChar_toNat (Nat.mod_lt n (by omega))]
      omega

theorem natChars_ne_nil (n f : Nat) : natChars (f + 1) n ≠ [] := by
  rw [natChars]
  by_cases h10 : n < 10
  · simp [h10]
  · simp [h10]

theorem natChars_digits {f n : Nat} {c : Char} (h : c ∈ natChars f n) : c.isDigit = true := by
  induction f generalizing n with
  | zero => simp [natChars] at h
  | succ f ih =>
    rw [natChars] at h
    by_cases h10 : n < 10
    · rw [if_pos h10] at h
      have hc := List.mem_singleton.mp h
      rw [hc]
      exact digitChar_isDigit h10
    · rw [if_neg h10] at h
      rcases List.mem_append.mp h with h1 | h2
      · exact ih h1
      · have hc := List.mem_singleton.mp h2
        rw [hc]
        exact digitChar_isDigit (Nat.mod_lt n (by omega))

theorem intChars_mem {i : Int} {c : Char} (h : c ∈ intChars i) :
    c = '-' ∨ c.isDigit = true := by
  unfold intChars at h
  by_cases hneg : i < 0
  · rw [if_pos hneg] at h
    cases h with
    | head => left; rfl
    | tail _ h => right; exact natChars_digits h
  · rw [if_neg hneg] at h
    right; exact natChars_digits h

theorem natStr_injective {n m : Nat}
    (h : natChars (n + 1) n = natChars (m + 1) m) : n = m := by
  have hn := natChars_val n n (Nat.le_refl n)
  have hm := natChars_val m m (Nat.le_refl m)
  rw [h] at hn
  omega

theorem natChars_head_digit (n : Nat) : ∀ c ∈ natChars (n + 1) n, c ≠ '-' := by
  intro c hc
  have := natChars_digits hc
  intro hcontra
  rw [hcontra] at this
  simp [Char.isDigit] at this

theorem intChars_injective {i j : Int} (h : intChars i = intChars j) : i = j := by
  unfold intChars at h
  by_cases hi : i < 0 <;> by_cases hj : j < 0
  · rw [if_pos hi, if_pos hj] at h
    injection h with h1 h2
    have := natStr_injective h2
    omega
  · rw [if_pos hi, if_neg hj] at h
    exfalso
    exact natChars_head_digit j.natAbs '-' (h ▸ List.mem_cons_self '-' _) rfl
  · rw [if_neg hi, if_pos hj] at h
    exfalso
    exact natChars_head_digit i.natAbs '-' (h.symm ▸ List.mem_cons_self '-' _) rfl
  · rw [if_neg hi, if_neg hj] at h
    have := natStr_injective h
    omega

/-- Splitting a character list at a separator that occurs in neither prefix
is unambiguous. -/
theorem sep_split {s : Char} :
    ∀ (a a' b b' : List Char), s ∉ a → s ∉ a' →
      a ++ s :: b = a' ++ s :: b' → a = a' ∧ b = b' := by
  intro a
  induction a with
  | nil =>
    intro a' b b' _ ha' h
    cases a' with
    | nil => simpa using h
    | cons c t =>
      simp at h
      exfalso
      exact ha' (h.1 ▸ List.mem_cons_self c t)
  | cons c t ih =>
    intro a' b b' ha ha' h
    cases a' with
    | nil =>
      simp at h
      exfalso
      exact ha (h.1 ▸ List.mem_cons_self c t)
    | cons c' t' =>
      simp at h
      obtain ⟨rfl, h2⟩ := h
      have := ih t' b b' (fun hs => ha (List.mem_cons_of_mem c hs))
        (fun hs => ha' (List.mem_cons_of_mem c hs)) h2
      exact ⟨by rw [this.1], this.2⟩

theorem not_mem_intChars {c : Char} (i : Int) (h1 : c ≠ '-') (h2 : ¬ c.isDigit = true) :
    c ∉ intChars i := fun hm => (intChars_mem hm).elim h1 h2

/-- Key under which a cell's generator value is looked up: the JavaScript
expression `[cell.i, cell.j].toString()` of `main.ts`. -/
def luckKey (c : Cell) : String := ⟨intChars c.i ++ ',' :: intChars c.j⟩

/-- Durable-store key of a cell's snapshot: `cache_{i}_{j}` of `main.ts`. -/
def cellKey (c : Cell) : String := ⟨("cache_").data ++ intChars c.i ++ '_' :: intChars c.j⟩

/-- Identifier of the `k`-th freshly generated coin of a cache:
`{i}:{j}#{k}` of `main.ts`. -/
def coinId (c : Cell) (k : Nat) : String :=
  ⟨intChars c.i ++ ':' :: intChars c.j ++ '#' :: natChars (k + 1) k⟩

/-- The coin list generated by the fresh branch of `spawnCache` for a cache
holding `n` coins. -/
def genCoins (c : Cell) (n : Nat) : List Coin :=
  (List.range n).map (fun k => ⟨coinId c k⟩)

theorem luckKey_injective {c c' : Cell} (h : luckKey c = luckKey c') : c = c' := by
  unfold luckKey at h
  have hd : (',').isDigit ≠ true := by decide
  have hlists : intChars c.i ++ ',' :: intChars c.j
      = intChars c'.i ++ ',' :: intChars c'.j := congrArg String.data h
  obtain ⟨h1, h2⟩ := sep_split _ _ _ _
    (not_mem_intChars c.i (by decide) hd) (not_mem_intChars c'.i (by decide) hd) hlists
  obtain ⟨i, j⟩ := c
  obtain ⟨i', j'⟩ := c'
  simp only [Cell.mk.injEq]
  exact ⟨intChars_injective h1, intChars_injective h2⟩

theorem cellKey_injective {c c' : Cell} (h : cellKey c = cellKey c') : c = c' := by
  unfold cellKey at h
  have hd : ('_').isDigit ≠ true := by decide
  have hlists := congrArg String.data h
  simp only [String.data] at hlists
  rw [List.append_assoc, List.append_assoc] at hlists
  have hcancel := List.append_cancel_left hlists
  obtain ⟨h1, h2⟩ := sep_split _ _ _ _
    (not_mem_intChars c.i (by decide) hd) (not_mem_intChars c'.i (by decide) hd) hcancel
  obtain ⟨i, j⟩ := c
  obtain ⟨i', j'⟩ := c'
  simp only [Cell.mk.injEq]
  exact ⟨intChars_injective h1, intChars_injective h2⟩

theorem coinId_injective {c c' : Cell} {k k' : Nat}
    (h : coinId c k = coinId c' k') : c = c' ∧ k = k' := by
  unfold coinId at h
  have hcolon : (':').isDigit ≠ true := by decide
  have hhash : ('#').isDigit ≠ true := by decide
  have hlists : intChars c.i ++ ':' :: (intChars c.j ++ '#' :: natChars (k + 1) k)
      = intChars c'.i ++ ':' :: (intChars c'.j ++ '#' :: natChars (k' + 1) k') := by
    have := congrArg String.data h
    simpa using this
  obtain ⟨h1, h2⟩ := sep_split _ _ _ _
    (not_mem_intChars c.i (by decide) hcolon) (not_mem_intChars c'.i (by decide) hcolon) hlists
  obtain ⟨h3, h4⟩ := sep_split _ _ _ _
    (not_mem_intChars c.j (by decide) hhash) (not_mem_intChars c'.j (by decide) hhash) h2
  obtain ⟨i, j⟩ := c
  obtain ⟨i', j'⟩ := c'
  simp only [Cell.mk.injEq]
  exact ⟨⟨intChars_injective h1, intChars_injective h3⟩, natStr_injective h4⟩

/-- JSON string escaping of one character, exactly as `JSON.stringify`
performs it: the two mandatory escapes, the named control escapes, and
`\u00XX` for the remaining control characters. -/
def escChar (c : Char) : List Char :=
  if c = '"' then ['\\', '"']
  else if c = '\\' then ['\\', '\\']
  else if c = '\n' then ['\\', 'n']
  else if c = '\r' then ['\\', 'r']
  else if c = '\t' then ['\\', 't']
  else if c = '\x08' then ['\\', 'b']
  else if c = '\x0c' then ['\\', 'f']
  else if c.toNat < 32 then
    ['\\', 'u', '0', '0', Nat.digitChar (c.toNat / 16), Nat.digitChar (c.toNat % 16)]
  else [c]

def escChars (s : List Char) : List Char := s.flatMap escChar

/-- Serialized form of one coin object, `\x7b"id":"…"\x7d`. -/
def encCoin (c : Coin) : List Char :=
  ("\x7b\"id\":\"").data ++ escChars c.id.data ++ ("\"\x7d").data

/-- Serialized form of the coin array body: elements joined by commas. -/
def encCoins : List Coin → List Char
  | [] => []
  | [c] => encCoin c
  | c :: rest => encCoin c ++ ',' :: encCoins rest

/-- Literal fragments of the snapshot format. -/
def litHead : List Char := ("\x7b\"coins\":[").data

def litCell : List Char := (",\"cell\":\x7b\"i\":").data

def litJ : List Char := (",\"j\":").data

def litJTail : List Char := ("\"j\":").data

def litEnd : List Char := ("\x7d\x7d").data

/-- Characters of `JSON.stringify(\x7b coins: this.coins, cell: this.cell \x7d)`:
the body of `toMomento` in `main.ts`. -/
def momentoChars (m : MCache) : List Char :=
  litHead ++ (encCoins m.coins ++ (']' :: (litCell
    ++ (intChars m.cell.i ++ (litJ ++ (intChars m.cell.j ++ litEnd))))))

/-- The `toMomento` method of a cache in `main.ts`. -/
def toMomento (m : MCache) : String := ⟨momentoChars m⟩

/-- Consume an expected literal prefix, failing like `JSON.parse` does on
unexpected input. -/
def expectLit : List Char → List Char → Except JErr (List Char)
  | [], cs => .ok cs
  | _ :: _, [] => .error .parse
  | l :: ls, c :: cs => if c = l then expectLit ls cs else .error .parse

/-- Value of a hexadecimal digit character. -/
def hexVal (c : Char) : Option Nat :=
  if '0' ≤ c ∧ c ≤ '9' then some (c.toNat - 48)
  else if 'a' ≤ c ∧ c ≤ 'f' then some (c.toNat - 87)
  else if 'A' ≤ c ∧ c ≤ 'F' then some (c.toNat - 55)
  else none

/-- Body of a JSON string after the opening quote: returns the decoded
characters and the input following the closing quote.  Fueled so that it
evaluates by kernel reduction; fuel `length + 1` always suffices. -/
def parseStrBody : Nat → List Char → Except JErr (List Char × List Char)
  | 0, _ => .error .parse
  | _ + 1, [] => .error .parse
  | f + 1, c :: cs =>
    if c = '"' then .ok ([], cs)
    else if c = '\\' then
      match cs with
      | [] => .error .parse
      | e :: cs' =>
        if e = '"' ∨ e = '\\' ∨ e = '/' then do
          let (s, r) ← parseStrBody f cs'
          .ok (e :: s, r)
        else if e = 'n' then do
          let (s, r) ← parseStrBody f cs'
          .ok ('\n' :: s, r)
        else if e = 'r' then do
          let (s, r) ← parseStrBody f cs'
          .ok ('\r' :: s, r)
        else if e = 't' then do
          let (s, r) ← parseStrBody f cs'
          .ok ('\t' :: s, r)
        else if e = 'b' then do
          let (s, r) ← parseStrBody f cs'
          .ok ('\x08' :: s, r)
        else if e = 'f' then do
          let (s, r) ← parseStrBody f cs'
          .ok ('\x0c' :: s, r)
        else if e = 'u' then
          match cs' with
          | h1 :: h2 :: h3 :: h4 :: cs'' =>
            match hexVal h1, hexVal h2, hexVal h3, hexVal h4 with
            | some a, some b, some hc, some d => do
              let (s, r) ← parseStrBody f cs''
              .ok (Char.ofNat (4096 * a + 256 * b + 16 * hc + d) :: s, r)
            | _, _, _, _ => .error .parse
          | _ => .error .parse
        else .error .parse
    else if c.toNat < 32 then .error .parse
    else do
      let (s, r) ← parseStrBody f cs
      .ok (c :: s, r)

/-- Parse one coin object `\x7b"id":"…"\x7d`. -/
def parseCoinObj (cs : List Char) : Except JErr (Coin × List Char) := do
  let cs₁ ← expectLit (("\x7b\"id\":\"").data) cs
  let (s, cs₂) ← parseStrBody (cs₁.length + 1) cs₁
  let cs₃ ← expectLit (("\x7d").data) cs₂
  .ok (⟨⟨s⟩⟩, cs₃)

/-- Parse the elements of a non-empty coin array, consuming the closing
bracket. -/
def parseCoinsLoop : Nat → List Char → Except JErr (List Coin × List Char)
  | 0, _ => .error .parse
  | f + 1, cs => do
    let (c, cs₁) ← parseCoinObj cs
    match cs₁ with
    | ',' :: cs₂ => do
      let (coins, cs₃) ← parseCoinsLoop f cs₂
      .ok (c :: coins, cs₃)
    | ']' :: cs₂ => .ok ([c], cs₂)
    | _ => .error .parse

/-- Parse a coin array body after the opening bracket, consuming the closing
bracket. -/
def parseCoins (cs : List Char) : Except JErr (List Coin × List Char) :=
  match cs with
  | ']' :: rest => .ok ([], rest)
  | _ => parseCoinsLoop (cs.length + 1) cs

/-- Parse a JSON integer (an optional minus sign followed by digits), the
only number shape this program ever serializes. -/
def parseIntChars : List Char → Except JErr (Int × List Char)
  | [] => .error .parse
  | c :: cs =>
    if c = '-' then
      let ds := cs.takeWhile Char.isDigit
      if ds.isEmpty then .error .parse
      else .ok (-(charsVal ds : Int), cs.dropWhile Char.isDigit)
    else
      let ds := (c :: cs).takeWhile Char.isDigit
      if ds.isEmpty then .error .parse
      else .ok ((charsVal ds : Int), (c :: cs).dropWhile Char.isDigit)

/-- Parse a complete snapshot string.  This models the composition of
`JSON.parse` with the field accesses of `fromMomento` in `main.ts`,
specialized to the snapshot format this program itself writes with
`toMomento`; any other input is a modelled exception.  (JavaScript's fully
general `JSON.parse` would also accept reorderings, whitespace and other
JSON documents that the program never produces; a snapshot missing the
`coins` or `cell` field would leave `undefined` in the cache, a corner no
theorem here exercises.) -/
def parseMomento (cs : List Char) : Except JErr MCache := do
  let cs₁ ← expectLit litHead cs
  let (coins, cs₂) ← parseCoins cs₁
  let cs₃ ← expectLit litCell cs₂
  let (i, cs₄) ← parseIntChars cs₃
  let cs₅ ← expectLit litJ cs₄
  let (j, cs₆) ← parseIntChars cs₅
  let cs₇ ← expectLit litEnd cs₆
  match cs₇ with
  | [] => .ok ⟨⟨i, j⟩, coins⟩
  | _ => .error .parse

/-- The `fromMomento` method of a cache in `main.ts`: `JSON.parse` plus the
two field assignments.  An `.error` value models the thrown exception that
`fromMomento` does not catch. -/
def fromMomentoCache (s : String) : Except JErr MCache := parseMomento s.data

theorem expectLit_append (lit : List Char) : ∀ cs, expectLit lit (lit ++ cs) = .ok cs := by
  induction lit with
  | nil => intro cs; rfl
  | cons l ls ih =>
    intro cs
    show expectLit (l :: ls) (l :: (ls ++ cs)) = .ok cs
    rw [expectLit, if_pos rfl]
    exact ih cs

theorem hexVal_digitChar {m : Nat} (h : m < 16) : hexVal (Nat.digitChar m) = some m := by
  revert h
  revert m
  decide

theorem psb_done (g : Nat) (X : List Char) : parseStrBody (g + 1) ('"' :: X) = .ok ([], X) := rfl

theorem psb_q (g : Nat) (X : List Char) :
    parseStrBody (g + 1) ('\\' :: '"' :: X)
      = (parseStrBody g X).bind (fun x => .ok ('"' :: x.1, x.2)) := rfl

theorem psb_bs (g : Nat) (X : List Char) :
    parseStrBody (g + 1) ('\\' :: '\\' :: X)
      = (parseStrBody g X).bind (fun x => .ok ('\\' :: x.1, x.2)) := rfl

theorem psb_n (g : Nat) (X : List Char) :
    parseStrBody (g + 1) ('\\' :: 'n' :: X)
      = (parseStrBody g X).bind (fun x => .ok ('\n' :: x.1, x.2)) := rfl

theorem psb_r (g : Nat) (X : List Char) :
    parseStrBody (g + 1) ('\\' :: 'r' :: X)
      = (parseStrBody g X).bind (fun x => .ok ('\r' :: x.1, x.2)) := rfl

theorem psb_t (g : Nat) (X : List Char) :
    parseStrBody (g + 1) ('\\' :: 't' :: X)
      = (parseStrBody g X).bind (fun x => .ok ('\t' :: x.1, x.2)) := rfl

theorem psb_b (g : Nat) (X : List Char) :
    parseStrBody (g + 1) ('\\' :: 'b' :: X)
      = (parseStrBody g X).bind (fun x => .ok ('\x08' :: x.1, x.2)) := rfl

theorem psb_f (g : Nat) (X : List Char) :
    parseStrBody (g + 1) ('\\' :: 'f' :: X)
      = (parseStrBody g X).bind (fun x => .ok ('\x0c' :: x.1, x.2)) := rfl

theorem psb_u (g : Nat) (h1 h2 h3 h4 : Char) (X : List Char) :
    parseStrBody (g + 1) ('\\' :: 'u' :: h1 :: h2 :: h3 :: h4 :: X)
      = match hexVal h1, hexVal h2, hexVal h3, hexVal h4 with
        | some a, some b, some hc, some d =>
            (parseStrBody g X).bind
              (fun x => .ok (Char.ofNat (4096 * a + 256 * b + 16 * hc + d) :: x.1, x.2))
        | _, _, _, _ => .error .parse := rfl

theorem psb_plain (g : Nat) (c : Char) (X : List Char) (hq : c ≠ '"') (hb : c ≠ '\\')
    (hctl : ¬ c.toNat < 32) :
    parseStrBody (g + 1) (c :: X) = (parseStrBody g X).bind (fun x => .ok (c :: x.1, x.2)) := by
  rw [parseStrBody.eq_def]
  simp only [if_neg hq, if_neg hb, if_neg hctl]
  rfl

theorem parseStrBody_escape (s : List Char) :
    ∀ (f : Nat) (rest : List Char),
      parseStrBody (f + s.length + 1) (escChars s ++ '"' :: rest) = .ok (s, rest) := by
  induction s with
  | nil =>
    intro f rest
    show parseStrBody (f + 0 + 1) ('"' :: rest) = .ok ([], rest)
    exact psb_done _ _
  | cons c cs ih =>
    intro f rest
    have hfuel : f + (c :: cs).length + 1 = (f + cs.length + 1) + 1 := by
      simp only [List.length_cons]
      omega
    rw [hfuel]
    rw [show escChars (c :: cs) = escChar c ++ escChars cs from List.flatMap_cons ..]
    unfold escChar
    by_cases h1 : c = '"'
    · subst h1
      simp only [reduceIte, List.cons_append, List.nil_append]
      rw [psb_q, ih f rest]
      rfl
    · rw [if_neg h1]
      by_cases h2 : c = '\\'
      · subst h2
        simp only [reduceIte, List.cons_append, List.nil_append]
        rw [psb_bs, ih f rest]
        rfl
      · rw [if_neg h2]
        by_cases h3 : c = '\n'
        · subst h3
          simp only [reduceIte, List.cons_append, List.nil_append]
          rw [psb_n, ih f rest]
          rfl
        · rw [if_neg h3]
          by_cases h4 : c = '\r'
          · subst h4
            simp only [reduceIte, List.cons_append, List.nil_append]
            rw [psb_r, ih f rest]
            rfl
          · rw [if_neg h4]
            by_cases h5 : c = '\t'
            · subst h5
              simp only [reduceIte, List.cons_append, List.nil_append]
              rw [psb_t, ih f rest]
              rfl
            · rw [if_neg h5]
              by_cases h6 : c = '\x08'
              · subst h6
                simp only [reduceIte, List.cons_append, List.nil_append]
                rw [psb_b, ih f rest]
                rfl
              · rw [if_neg h6]
                by_cases h7 : c = '\x0c'
                · subst h7
                  simp only [reduceIte, List.cons_append, List.nil_append]
                  rw [psb_f, ih f rest]
                  rfl
                · rw [if_neg h7]
                  by_cases h8 : c.toNat < 32
                  · rw [if_pos h8]
                    simp only [List.cons_append, List.nil_append]
                    rw [psb_u]
                    rw [show hexVal '0' = some 0 from rfl]
                    rw [hexVal_digitChar (show c.toNat / 16 < 16 by omega),
                      hexVal_digitChar (Nat.mod_lt _ (by omega))]
                    simp only
                    rw [ih f rest]
                    have hv : 4096 * 0 + 256 * 0 + 16 * (c.toNat / 16) + c.toNat % 16
                        = c.toNat := by omega
                    rw [hv, Char.ofNat_toNat]
                    rfl
                  · rw [if_neg h8]
                    simp only [List.cons_append, List.nil_append]
                    rw [psb_plain _ _ _ h1 h2 h8, ih f rest]
                    rfl

theorem escChar_length_pos (c : Char) : 1 ≤ (escChar c).length := by
  unfold escChar
  split_ifs <;> simp

theorem escChars_length_ge (s : List Char) : s.length ≤ (escChars s).length := by
  induction s with
  | nil => simp [escChars]
  | cons c cs ih =>
    rw [show escChars (c :: cs) = escChar c ++ escChars cs from List.flatMap_cons ..]
    simp only [List.length_append, List.length_cons]
    have := escChar_length_pos c
    omega

theorem parseStrBody_escape_le (s : List Char) (F : Nat) (rest : List Char)
    (h : s.length + 1 ≤ F) :
    parseStrBody F (escChars s ++ '"' :: rest) = .ok (s, rest) := by
  obtain ⟨f, rfl⟩ : ∃ f, F = f + s.length + 1 := ⟨F - s.length - 1, by omega⟩
  exact parseStrBody_escape s f rest

theorem parseCoinObj_enc (c : Coin) (rest : List Char) :
    parseCoinObj (encCoin c ++ rest) = .ok (c, rest) := by
  unfold parseCoinObj encCoin
  rw [List.append_assoc, List.append_assoc, expectLit_append]
  simp only [Bind.bind, Except.bind]
  rw [show (("\"\x7d").data ++ rest) = '"' :: '\x7d' :: rest from rfl]
  have hlen : c.id.data.length + 1
      ≤ (escChars c.id.data ++ '"' :: '\x7d' :: rest).length + 1 := by
    simp only [List.length_append]
    have := escChars_length_ge c.id.data
    omega
  rw [parseStrBody_escape_le _ _ _ hlen]
  rfl

theorem pcl_step (g : Nat) (cs : List Char) :
    parseCoinsLoop (g + 1) cs
      = (parseCoinObj cs).bind (fun x =>
          match x.2 with
          | ',' :: cs2 => (parseCoinsLoop g cs2).bind (fun y => .ok (x.1 :: y.1, y.2))
          | ']' :: cs2 => .ok ([x.1], cs2)
          | _ => .error .parse) := rfl

theorem parseCoinsLoop_enc (coins : List Coin) :
    ∀ (c : Coin) (f : Nat) (rest : List Char),
      parseCoinsLoop (f + coins.length + 1) (encCoins (c :: coins) ++ ']' :: rest)
        = .ok (c :: coins, rest) := by
  induction coins with
  | nil =>
    intro c f rest
    rw [show encCoins [c] = encCoin c from rfl]
    rw [show f + ([] : List Coin).length + 1 = f + 1 from by simp]
    rw [pcl_step, parseCoinObj_enc]
    rfl
  | cons c2 t ih =>
    intro c f rest
    rw [show encCoins (c :: c2 :: t) = encCoin c ++ ',' :: encCoins (c2 :: t) from rfl]
    rw [show f + (c2 :: t).length + 1 = (f + t.length + 1) + 1 from by simp; omega]
    rw [pcl_step]
    simp only [List.append_assoc, List.cons_append]
    rw [parseCoinObj_enc]
    simp only [Except.bind]
    rw [ih c2 f rest]

theorem encCoins_length_ge (coins : List Coin) : coins.length ≤ (encCoins coins).length := by
  induction coins with
  | nil => simp [encCoins]
  | cons c t ih =>
    cases t with
    | nil =>
      show 1 ≤ (encCoin c).length
      unfold encCoin
      simp
    | cons c2 t' =>
      rw [show encCoins (c :: c2 :: t') = encCoin c ++ ',' :: encCoins (c2 :: t') from rfl]
      simp only [List.length_append, List.length_cons]
      have h2 := ih
      simp only [List.length_cons] at h2 ⊢
      omega

theorem parseCoinsLoop_enc_le (coins : List Coin) (c : Coin) (F : Nat) (rest : List Char)
    (h : coins.length + 1 ≤ F) :
    parseCoinsLoop F (encCoins (c :: coins) ++ ']' :: rest) = .ok (c :: coins, rest) := by
  obtain ⟨f, rfl⟩ : ∃ f, F = f + coins.length + 1 := ⟨F - coins.length - 1, by omega⟩
  exact parseCoinsLoop_enc coins c f rest

theorem parseCoins_enc (coins : List Coin) (rest : List Char) :
    parseCoins (encCoins coins ++ ']' :: rest) = .ok (coins, rest) := by
  cases coins with
  | nil => rfl
  | cons c t =>
    have hstep : parseCoins (encCoins (c :: t) ++ ']' :: rest)
        = parseCoinsLoop ((encCoins (c :: t) ++ ']' :: rest).length + 1)
            (encCoins (c :: t) ++ ']' :: rest) := by
      cases t with
      | nil => rfl
      | cons c2 t' => rfl
    rw [hstep]
    apply parseCoinsLoop_enc_le
    have := encCoins_length_ge (c :: t)
    simp only [List.length_append, List.length_cons] at this ⊢
    omega

theorem takeWhile_digits (xs : List Char) (d : Char) (rest : List Char)
    (hxs : ∀ x ∈ xs, x.isDigit = true) (hd : d.isDigit = false) :
    (xs ++ d :: rest).takeWhile Char.isDigit = xs := by
  induction xs with
  | nil => simp [List.takeWhile_cons, hd]
  | cons x t ih =>
    simp only [List.cons_append, List.takeWhile_cons, hxs x (List.mem_cons_self x t)]
    rw [ih (fun y hy => hxs y (List.mem_cons_of_mem x hy))]
    simp

theorem dropWhile_digits (xs : List Char) (d : Char) (rest : List Char)
    (hxs : ∀ x ∈ xs, x.isDigit = true) (hd : d.isDigit = false) :
    (xs ++ d :: rest).dropWhile Char.isDigit = d :: rest := by
  induction xs with
  | nil => simp [List.dropWhile_cons, hd]
  | cons x t ih =>
    simp only [List.cons_append, List.dropWhile_cons, hxs x (List.mem_cons_self x t)]
    rw [ih (fun y hy => hxs y (List.mem_cons_of_mem x hy))]
    simp

theorem parseIntChars_enc (i : Int) (d : Char) (rest : List Char) (hd : d.isDigit = false) :
    parseIntChars (intChars i ++ d :: rest) = .ok (i, d :: rest) := by
  by_cases hneg : i < 0
  · rw [show intChars i = '-' :: natChars (i.natAbs + 1) i.natAbs from by
      unfold intChars; rw [if_pos hneg]]
    rw [List.cons_append, parseIntChars]
    rw [if_pos rfl]
    simp only
    rw [takeWhile_digits _ _ _ (fun x hx => natChars_digits hx) hd,
      dropWhile_digits _ _ _ (fun x hx => natChars_digits hx) hd]
    have hne := natChars_ne_nil i.natAbs i.natAbs
    rw [if_neg (by simpa [List.isEmpty_iff] using hne)]
    rw [natChars_val i.natAbs i.natAbs (Nat.le_refl _)]
    have heq : -(i.natAbs : Int) = i := by omega
    rw [heq]
  · rw [show intChars i = natChars (i.natAbs + 1) i.natAbs from by
      unfold intChars; rw [if_neg hneg]]
    obtain ⟨hd0, tl, heq⟩ := List.exists_cons_of_ne_nil (natChars_ne_nil i.natAbs i.natAbs)
    rw [heq, List.cons_append, parseIntChars]
    have hdig : hd0.isDigit = true := natChars_digits (heq ▸ List.mem_cons_self hd0 tl)
    have hnm : hd0 ≠ '-' := by
      intro hcontra
      rw [hcontra] at hdig
      simp [Char.isDigit] at hdig
    rw [if_neg hnm]
    simp only
    rw [show hd0 :: (tl ++ d :: rest) = (hd0 :: tl) ++ d :: rest from rfl, ← heq]
    rw [takeWhile_digits _ _ _ (fun x hx => natChars_digits hx) hd,
      dropWhile_digits _ _ _ (fun x hx => natChars_digits hx) hd]
    have hne := natChars_ne_nil i.natAbs i.natAbs
    rw [if_neg (by simpa [List.isEmpty_iff] using hne)]
    rw [natChars_val i.natAbs i.natAbs (Nat.le_refl _)]
    have hval : (i.natAbs : Int) = i := by omega
    rw [hval]

theorem parseMomento_enc (m : MCache) : parseMomento (momentoChars m) = .ok m := by
  unfold parseMomento momentoChars
  simp only [Bind.bind, Except.bind]
  rw [expectLit_append]
  simp only
  rw [parseCoins_enc]
  simp only
  rw [expectLit_append]
  simp only
  rw [show litJ ++ (intChars m.cell.j ++ litEnd)
      = ',' :: (litJTail ++ (intChars m.cell.j ++ litEnd)) from rfl]
  rw [parseIntChars_enc _ _ _ (by decide)]
  simp only
  rw [show ',' :: (litJTail ++ (intChars m.cell.j ++ litEnd))
      = litJ ++ (intChars m.cell.j ++ litEnd) from rfl]
  rw [expectLit_append]
  simp only
  rw [show (litEnd : List Char) = '\x7d' :: ['\x7d'] from rfl]
  rw [parseIntChars_enc _ _ _ (by decide)]
  rfl

/-- C2: for every cache state — any cell and any finite coin list —
deserializing the string produced by serializing it recovers the cache
exactly: `fromMomento(toMomento(c))` yields the same cell `(i, j)` and the
very same coin list, hence in particular the same multiset of coin ids. -/
theorem serialization_roundtrip (m : MCache) :
    fromMomentoCache (toMomento m) = .ok m :=
  parseMomento_enc m

/-- The modelled `localStorage`: an association list of key/value pairs. -/
abbrev Store := List (String × String)

/-- The `localStorage.getItem`. -/
def storeGet : Store → String → Option String
  | [], _ => none
  | (k, v) :: t, key => if k = key then some v else storeGet t key

/-- The `localStorage.setItem`. -/
def storeSet : Store → String → String → Store
  | [], key, val => [(key, val)]
  | (k, v) :: t, key, val =>
      if k = key then (key, val) :: t else (k, v) :: storeSet t key val

/-- The `CACHE_SPAWN_PROBABILITY = 0.1` of `main.ts`. -/
def CACHE_SPAWN_PROBABILITY : ℚ := mkRat 1 10

/-- Multiplication of a rational by a natural constant, computed on
numerator/denominator form so that it kernel-evaluates; `mulByNat_eq` proves
it equal to ordinary multiplication. -/
def mulByNat (q : ℚ) (m : Nat) : ℚ := mkRat (q.num * m) q.den

theorem mulByNat_eq (q : ℚ) (m : Nat) : mulByNat q m = q * m := by
  unfold mulByNat
  rw [Rat.mkRat_eq_div]
  push_cast
  rw [mul_div_right_comm, Rat.num_div_den]

theorem ratFloor_eq (q : ℚ) : Rat.floor q = ⌊q⌋ := by
  rw [Rat.floor_def', Rat.floor_def]

/-- Number of coins of a freshly generated cache:
`Math.floor(luck([cell.i, cell.j].toString()) * 100)` of `main.ts`
(clamped at zero by the generating loop). -/
def numCoinsFor (luck : String → ℚ) (c : Cell) : Nat :=
  (Rat.floor (mulByNat (luck (luckKey c)) 100)).toNat

theorem numCoinsFor_eq (luck : String → ℚ) (c : Cell) :
    numCoinsFor luck c = (⌊luck (luckKey c) * (100 : ℚ)⌋).toNat := by
  unfold numCoinsFor
  rw [mulByNat_eq, ratFloor_eq]
  norm_num

/-- The cache built by the fresh-generation branch of `spawnCache`. -/
def freshCache (luck : String → ℚ) (c : Cell) : MCache :=
  ⟨c, genCoins c (numCoinsFor luck c)⟩

/-- The `spawnCache` of `main.ts`, without the marker/popup side effects: if a
snapshot is saved under `cache_{i}_{j}` it is restored with `fromMomento`
(whose exception, if any, propagates — there is no try/catch); otherwise
coins are generated deterministically and the initial snapshot is saved. -/
def spawnCache (luck : String → ℚ) (store : Store) (cell : Cell) :
    Except JErr (MCache × Store) :=
  match storeGet store (cellKey cell) with
  | some saved => (fromMomentoCache saved).map (fun mc => (mc, store))
  | none =>
      let cache := freshCache luck cell
      .ok (cache, storeSet store (cellKey cell) (toMomento cache))

/-- The memento scan of `updateVisibleCaches` (`main.ts` lines 270-278):
parse each tracked memento in turn (`currentCache.fromMomento(cache)`,
whose exception propagates) and report the first whose cell coordinates
equal the processed cell. -/
def findMemento (cell : Cell) : List String → Except JErr (Option String)
  | [] => .ok none
  | m :: rest => do
      let mc ← fromMomentoCache m
      if mc.cell = cell then .ok (some m) else findMemento cell rest

/-- The mutable module state of `main.ts` that the cache world touches:
`localStorage` and the `visibleCaches` memento list.  Markers and popups are
rendering side effects outside the model. -/
structure WState where
  store : Store
  visible : List String
deriving DecidableEq

/-- Processing of one nearby cell inside `updateVisibleCaches`: when the
spawn decision fires, spawn a cache (store side effect included), scan the
memento list for a duplicate; on a hit push the found memento again, on a
miss spawn a second cache and push its memento. -/
def processCell (luck : String → ℚ) (st : WState) (cell : Cell) : Except JErr WState :=
  if luck (luckKey cell) < CACHE_SPAWN_PROBABILITY then do
    let (_cur, store₁) ← spawnCache luck st.store cell
    let m? ← findMemento cell st.visible
    match m? with
    | some m => .ok ⟨store₁, st.visible ++ [m]⟩
    | none => do
        let (newCache, store₂) ← spawnCache luck store₁ cell
        .ok ⟨store₂, st.visible ++ [toMomento newCache]⟩
  else .ok st

/-- The `nearbyCells.forEach` loop of `updateVisibleCaches`, processing the
window cells in order and threading the store and memento list. -/
def updateLoop (luck : String → ℚ) : List Cell → WState → Except JErr WState
  | [], st => .ok st
  | c :: cs, st => do
      let st' ← processCell luck st c
      updateLoop luck cs st'

/-- Offsets `-r .. r` as produced by the `for` loops of
`Board.getCellsNearPoint`. -/
def offsetsList (r : Nat) : List Int :=
  (List.range (2 * r + 1)).map (fun (a : Nat) => (a : Int) - (r : Int))

/-- The cell containing a point: `Math.floor(lat * 1e4)`,
`Math.floor(lng * 1e4)` from `Board.getCellForPoint`, value level.
(`mulByNat` is ordinary multiplication, by `mulByNat_eq`.) -/
def cellFloor (lat lng : ℚ) : Cell :=
  ⟨Rat.floor (mulByNat lat 10000), Rat.floor (mulByNat lng 10000)⟩

/-- The cell window `Board.getCellsNearPoint` returns for a point, value
level: all offsets within Chebyshev distance `r`, row-major, translated to
the cell containing the point.  The tagged-board theorems below prove that
the interned cells the `Board` object actually returns carry exactly these
coordinates. -/
def windowCells (r : Nat) (lat lng : ℚ) : List Cell :=
  (offsetsList r ×ˢ offsetsList r).map
    (fun d => ⟨(cellFloor lat lng).i + d.1, (cellFloor lat lng).j + d.2⟩)

/-- The `NEIGHBORHOOD_SIZE = 8` of `main.ts`, the visibility radius passed to
the `Board`. -/
def NEIGHBORHOOD_SIZE : Nat := 8

/-- The `updateVisibleCaches` of `main.ts`: clear the markers (outside the
model), recompute the nearby cells, and process each cell.  Exceptions out
of the memento machinery propagate, as in the source. -/
def updateVisibleCaches (luck : String → ℚ) (lat lng : ℚ) (st : WState) :
    Except JErr WState :=
  updateLoop luck (windowCells NEIGHBORHOOD_SIZE lat lng) st

/-- The mutable state the coin-transfer operations of `main.ts` touch:
`playerInventory`, the materialized cache entities (each aliased by its
popup), and the `visibleCaches` memento list. -/
structure GState where
  inventory : List Coin
  caches : List MCache
  visible : List String
deriving DecidableEq

/-- The `refreshMemento` of `main.ts`: re-serialize the given cache into every
tracked memento whose parsed cell coordinates match it (`JSON.parse` of a
malformed entry would throw; the error propagates). -/
def refreshMemento (cache : MCache) : List String → Except JErr (List String)
  | [] => .ok []
  | m :: rest => do
      let mc ← fromMomentoCache m
      let upd := if mc.cell = cache.cell then toMomento cache else m
      let rest' ← refreshMemento cache rest
      .ok (upd :: rest')

/-- The `collectCoin` of `main.ts` acting on the cache at index `ci`: remove
every coin whose id equals the clicked coin's id from the cache, push the
coin onto the inventory, and refresh the mementos. -/
def collectCoin (coin : Coin) (ci : Nat) (st : GState) : Except JErr GState :=
  match st.caches[ci]? with
  | none => .ok st
  | some cache => do
      let cache' : MCache := ⟨cache.cell, cache.coins.filter (fun c => c.id != coin.id)⟩
      let vis' ← refreshMemento cache' st.visible
      .ok ⟨st.inventory ++ [coin], st.caches.set ci cache', vis'⟩

/-- The `collectAll` of `main.ts`: move all of the cache's coins to the
inventory. -/
def collectAll (ci : Nat) (st : GState) : Except JErr GState :=
  match st.caches[ci]? with
  | none => .ok st
  | some cache => do
      let cache' : MCache := ⟨cache.cell, []⟩
      let vis' ← refreshMemento cache' st.visible
      .ok ⟨st.inventory ++ cache.coins, st.caches.set ci cache', vis'⟩

/-- The `depositCoin` of `main.ts`: push the given coin into the cache.  The
coin has already been removed from the inventory by the click handler
(`playerInventory.shift()`); see `depositClick`. -/
def depositCoin (coin : Coin) (ci : Nat) (st : GState) : Except JErr GState :=
  match st.caches[ci]? with
  | none => .ok st
  | some cache => do
      let cache' : MCache := ⟨cache.cell, cache.coins ++ [coin]⟩
      let vis' ← refreshMemento cache' st.visible
      .ok ⟨st.inventory, st.caches.set ci cache', vis'⟩

/-- The deposit button handler of `main.ts`: with a non-empty inventory,
shift its first coin out and deposit it; with an empty inventory, do
nothing. -/
def depositClick (ci : Nat) (st : GState) : Except JErr GState :=
  match st.inventory with
  | [] => .ok st
  | coin :: restInv => depositCoin coin ci ⟨restInv, st.caches, st.visible⟩

/-- One user-triggered coin-transfer operation. -/
inductive Op where
  | collect (ci : Nat) (coin : Coin)
  | collectAllBtn (ci : Nat)
  | depositBtn (ci : Nat)

def applyOp (st : GState) : Op → Except JErr GState
  | .collect ci coin => collectCoin coin ci st
  | .collectAllBtn ci => collectAll ci st
  | .depositBtn ci => depositClick ci st

/-- The conditions under which the UI can trigger an operation: collect
buttons exist only for coins actually present in the popup's cache; the
other buttons act on an existing cache (an empty inventory makes deposit a
no-op, as in the source). -/
def ValidOp (st : GState) : Op → Prop
  | .collect ci coin => ∃ cache, st.caches[ci]? = some cache ∧ coin ∈ cache.coins
  | .collectAllBtn ci => ci < st.caches.length
  | .depositBtn ci => ci < st.caches.length

/-- Big-step execution of a sequence of valid coin-transfer operations. -/
inductive RunOps : GState → List Op → GState → Prop
  | nil (st : GState) : RunOps st [] st
  | cons {st st₁ st₂ : GState} {op : Op} {ops : List Op} :
      ValidOp st op → applyOp st op = .ok st₁ → RunOps st₁ ops st₂ →
      RunOps st (op :: ops) st₂

/-- An idealized game start state: empty inventory and caches freshly
generated by `spawnCache` for pairwise distinct cells.  The actual program
does not satisfy the distinctness part on day one: the miss branch of
`updateVisibleCaches` calls `spawnCache` twice per spawn-positive cell and
both returned cache objects stay live and popup-bound, so a real session
materializes two caches per cell with identical coin ids — see
`coin_conservation_violated` below for the consequence. -/
def InitialG (st : GState) : Prop :=
  st.inventory = [] ∧
  (st.caches.map (fun c => c.cell)).Nodup ∧
  ∀ c ∈ st.caches, ∃ n, c.coins = genCoins c.cell n

/-- Game states reachable from a start state through valid coin-transfer
operations. -/
inductive ReachableG : GState → Prop
  | init {st : GState} : InitialG st → ReachableG st
  | step {st : GState} {op : Op} {st' : GState} :
      ReachableG st → ValidOp st op → applyOp st op = .ok st' → ReachableG st'

/-- The multiset union of the player inventory and all caches' coins. -/
def coinBag (st : GState) : Multiset Coin :=
  ((st.inventory ++ st.caches.flatMap (fun c => c.coins) : List Coin) : Multiset Coin)

/-- Well-formedness: no two coins anywhere in the game share an id. -/
def WFcoins (st : GState) : Prop := ((coinBag st).map Coin.id).Nodup

theorem coin_eta {a b : Coin} (h : a.id = b.id) : a = b := by
  cases a
  cases b
  simpa using h

theorem filter_collect_perm (coin : Coin) :
    ∀ (l : List Coin), (l.map Coin.id).Nodup → coin ∈ l →
      (coin :: l.filter (fun c => c.id != coin.id)).Perm l := by
  intro l
  induction l with
  | nil => intro _ hm; cases hm
  | cons a t ih =>
    intro hnd hm
    rw [List.map_cons, List.nodup_cons] at hnd
    by_cases ha : a = coin
    · subst ha
      rw [List.filter_cons, if_neg (by simp)]
      have hfilter : t.filter (fun c => c.id != a.id) = t := by
        rw [List.filter_eq_self]
        intro c hc
        have hne : c.id ≠ a.id := by
          intro hcontra
          exact hnd.1 (List.mem_map.mpr ⟨c, hc, hcontra⟩)
        simpa using hne
      rw [hfilter]
    · have hm' : coin ∈ t := by
        cases hm with
        | head => exact absurd rfl ha
        | tail _ h => exact h
      have hane : (a.id != coin.id) = true := by
        have : a.id ≠ coin.id := fun hc => ha (coin_eta hc)
        simpa using this
      rw [List.filter_cons, if_pos hane]
      have ihh := ih hnd.2 hm'
      exact List.Perm.trans (List.Perm.swap a coin _) (ihh.cons a)

theorem caches_split {l : List MCache} {n : Nat} {cache : MCache}
    (h : l[n]? = some cache) :
    l = l.take n ++ cache :: l.drop (n + 1) := by
  obtain ⟨hlt, hget⟩ := List.getElem?_eq_some_iff.mp h
  conv_lhs => rw [← List.take_append_drop n l]
  rw [← List.getElem_cons_drop l n hlt, hget]

theorem caches_set_split {l : List MCache} {n : Nat} {cache : MCache}
    (h : l[n]? = some cache) (cache' : MCache) :
    l.set n cache' = l.take n ++ cache' :: l.drop (n + 1) := by
  obtain ⟨hlt, _⟩ := List.getElem?_eq_some_iff.mp h
  rw [List.set_eq_take_append_cons_drop, if_pos hlt]

theorem cache_coins_nodup {st : GState} {n : Nat} {cache : MCache}
    (hwf : WFcoins st) (h : st.caches[n]? = some cache) :
    (cache.coins.map Coin.id).Nodup := by
  unfold WFcoins coinBag at hwf
  rw [Multiset.map_coe, Multiset.coe_nodup] at hwf
  have hsub : cache.coins.Sublist
      (st.inventory ++ st.caches.flatMap (fun c => c.coins)) := by
    apply List.Sublist.trans ?_ (List.sublist_append_right _ _)
    rw [caches_split h, List.flatMap_append, List.flatMap_cons]
    exact List.Sublist.trans (List.sublist_append_left _ _)
      (List.sublist_append_right _ _)
  exact List.Nodup.sublist (hsub.map Coin.id) hwf

theorem except_bind_ok_iff {α β : Type} (e : Except JErr α) (k : α → Except JErr β) (b : β) :
    (e >>= k) = .ok b ↔ ∃ a, e = .ok a ∧ k a = .ok b := by
  cases e with
  | error err => simp [Bind.bind, Except.bind]
  | ok a => simp [Bind.bind, Except.bind]

theorem applyOp_conserves {st st' : GState} {op : Op}
    (hwf : WFcoins st) (hv : ValidOp st op) (hap : applyOp st op = .ok st') :
    coinBag st' = coinBag st := by
  cases op with
  | collect ci coin =>
    obtain ⟨cache, hcache, hmem⟩ := hv
    simp only [applyOp] at hap
    unfold collectCoin at hap
    rw [hcache] at hap
    simp only [] at hap
    rw [except_bind_ok_iff] at hap
    obtain ⟨vis', _hrm, hap⟩ := hap
    injection hap with hap
    subst hap
    unfold coinBag
    simp only
    rw [caches_set_split hcache]
    conv_rhs => rw [caches_split hcache]
    simp only [List.flatMap_append, List.flatMap_cons, ← Multiset.coe_add,
      ← Multiset.coe_singleton coin]
    have hkey : (↑cache.coins : Multiset Coin)
        = (↑(cache.coins.filter (fun c => c.id != coin.id)) : Multiset Coin)
            + ↑([coin] : List Coin) := by
      have hperm := filter_collect_perm coin cache.coins (cache_coins_nodup hwf hcache) hmem
      rw [← Multiset.coe_eq_coe.mpr hperm, ← Multiset.cons_coe, Multiset.coe_singleton,
        ← Multiset.singleton_add]
      exact (add_comm _ _)
    rw [hkey]
    abel
  | collectAllBtn ci =>
    have hcache : st.caches[ci]? = some st.caches[ci] := List.getElem?_eq_getElem hv
    simp only [applyOp] at hap
    unfold collectAll at hap
    rw [hcache] at hap
    simp only [] at hap
    rw [except_bind_ok_iff] at hap
    obtain ⟨vis', _hrm, hap⟩ := hap
    injection hap with hap
    subst hap
    unfold coinBag
    simp only
    rw [caches_set_split hcache]
    conv_rhs => rw [caches_split hcache]
    simp only [List.flatMap_append, List.flatMap_cons, ← Multiset.coe_add]
    abel
  | depositBtn ci =>
    simp only [applyOp] at hap
    unfold depositClick at hap
    cases hinv : st.inventory with
    | nil =>
      rw [hinv] at hap
      injection hap with hap
      rw [← hap]
    | cons coin restInv =>
      rw [hinv] at hap
      have hcache : st.caches[ci]? = some st.caches[ci] := List.getElem?_eq_getElem hv
      unfold depositCoin at hap
      simp only [] at hap
      rw [hcache] at hap
      simp only [] at hap
      rw [except_bind_ok_iff] at hap
      obtain ⟨vis', _hrm, hap⟩ := hap
      injection hap with hap
      subst hap
      unfold coinBag
      simp only
      rw [caches_set_split hcache]
      conv_rhs => rw [caches_split hcache, hinv]
      simp only [List.flatMap_append, List.flatMap_cons, ← Multiset.coe_add,
        ← Multiset.cons_coe, ← Multiset.singleton_add]
      abel

theorem genCoins_map_id (c : Cell) (n : Nat) :
    (genCoins c n).map Coin.id = (List.range n).map (coinId c) := by
  unfold genCoins
  rw [List.map_map]
  rfl

theorem initial_flat_nodup :
    ∀ (l : List MCache), (l.map (fun c => c.cell)).Nodup →
      (∀ c ∈ l, ∃ n, c.coins = genCoins c.cell n) →
      ((l.flatMap (fun c => c.coins)).map Coin.id).Nodup := by
  intro l
  induction l with
  | nil => intro _ _; simp
  | cons x xs ih =>
    intro hnd hgen
    rw [List.map_cons, List.nodup_cons] at hnd
    rw [List.flatMap_cons, List.map_append, List.nodup_append]
    obtain ⟨n, hn⟩ := hgen x (List.mem_cons_self x xs)
    refine ⟨?_, ih hnd.2 (fun c hc => hgen c (List.mem_cons_of_mem x hc)), ?_⟩
    · rw [hn, genCoins_map_id]
      exact List.Nodup.map (fun k k' hkk => (coinId_injective hkk).2) (List.nodup_range n)
    · intro a ha hb
      rw [hn, genCoins_map_id] at ha
      obtain ⟨k, _, hk⟩ := List.mem_map.mp ha
      rw [List.map_flatMap] at hb
      obtain ⟨c2, hc2, hb2⟩ := List.mem_flatMap.mp hb
      obtain ⟨n2, hn2⟩ := hgen c2 (List.mem_cons_of_mem x hc2)
      rw [hn2, genCoins_map_id] at hb2
      obtain ⟨k2, _, hk2⟩ := List.mem_map.mp hb2
      rw [← hk] at hk2
      have hcells := (coinId_injective hk2).1
      exact hnd.1 (List.mem_map.mpr ⟨c2, hc2, by rw [hcells]⟩)

theorem initial_wf {st : GState} (h : InitialG st) : WFcoins st := by
  obtain ⟨hinv, hcells, hcoins⟩ := h
  unfold WFcoins coinBag
  rw [hinv, List.nil_append, Multiset.map_coe, Multiset.coe_nodup]
  exact initial_flat_nodup st.caches hcells hcoins

theorem reachable_wf {st : GState} (h : ReachableG st) : WFcoins st := by
  induction h with
  | init h0 => exact initial_wf h0
  | step _ hv hap ih =>
    unfold WFcoins
    rw [applyOp_conserves ih hv hap]
    exact ih

/-- Conditional conservation: for every sequence of valid collect and
deposit operations applied to a state reachable from an `InitialG` start —
i.e. under the idealization that each cell has at most one materialized
cache — the multiset union of the player inventory and all caches' coins
is unchanged.  The idealization fails in the program (see
`coin_conservation_violated`), which is exactly why conservation fails
there. -/
theorem conservation_of_distinct_cells :
    ∀ (st : GState) (ops : List Op) (st' : GState),
      ReachableG st → RunOps st ops st' → coinBag st' = coinBag st := by
  intro st ops
  induction ops generalizing st with
  | nil =>
    intro st' _ hrun
    cases hrun
    rfl
  | cons op ops ih =>
    intro st' hreach hrun
    cases hrun with
    | cons hv hap htail =>
      rw [ih _ _ (ReachableG.step hreach hv hap) htail]
      exact applyOp_conserves (reachable_wf hreach) hv hap

/-- The conditional conservation theorem at a concrete run: one cache at
cell (0,0) holding its single generated coin; collecting that coin and
then depositing it back leaves the coin bag unchanged. -/
theorem conservation_of_distinct_cells_example :
    coinBag ⟨[], [⟨⟨0, 0⟩, [⟨coinId ⟨0, 0⟩ 0⟩]⟩], [toMomento ⟨⟨0, 0⟩, [⟨coinId ⟨0, 0⟩ 0⟩]⟩]⟩
      = coinBag ⟨[], [⟨⟨0, 0⟩, genCoins ⟨0, 0⟩ 1⟩],
          [toMomento ⟨⟨0, 0⟩, genCoins ⟨0, 0⟩ 1⟩]⟩ :=
  conservation_of_distinct_cells
    ⟨[], [⟨⟨0, 0⟩, genCoins ⟨0, 0⟩ 1⟩], [toMomento ⟨⟨0, 0⟩, genCoins ⟨0, 0⟩ 1⟩]⟩
    [.collect 0 ⟨coinId ⟨0, 0⟩ 0⟩, .depositBtn 0]
    ⟨[], [⟨⟨0, 0⟩, [⟨coinId ⟨0, 0⟩ 0⟩]⟩], [toMomento ⟨⟨0, 0⟩, [⟨coinId ⟨0, 0⟩ 0⟩]⟩]⟩
    (ReachableG.init ⟨rfl, by decide, fun c hc => ⟨1, by
      rw [List.mem_singleton] at hc
      rw [hc]⟩⟩)
    (@RunOps.cons
      ⟨[], [⟨⟨0, 0⟩, genCoins ⟨0, 0⟩ 1⟩], [toMomento ⟨⟨0, 0⟩, genCoins ⟨0, 0⟩ 1⟩]⟩
      ⟨[⟨coinId ⟨0, 0⟩ 0⟩], [⟨⟨0, 0⟩, []⟩], [toMomento ⟨⟨0, 0⟩, ([] : List Coin)⟩]⟩
      ⟨[], [⟨⟨0, 0⟩, [⟨coinId ⟨0, 0⟩ 0⟩]⟩], [toMomento ⟨⟨0, 0⟩, [⟨coinId ⟨0, 0⟩ 0⟩]⟩]⟩
      (.collect 0 ⟨coinId ⟨0, 0⟩ 0⟩) [.depositBtn 0]
      ⟨⟨⟨0, 0⟩, genCoins ⟨0, 0⟩ 1⟩, by decide, by decide⟩
      (by decide)
      (@RunOps.cons
        ⟨[⟨coinId ⟨0, 0⟩ 0⟩], [⟨⟨0, 0⟩, []⟩], [toMomento ⟨⟨0, 0⟩, ([] : List Coin)⟩]⟩
        ⟨[], [⟨⟨0, 0⟩, [⟨coinId ⟨0, 0⟩ 0⟩]⟩], [toMomento ⟨⟨0, 0⟩, [⟨coinId ⟨0, 0⟩ 0⟩]⟩]⟩
        ⟨[], [⟨⟨0, 0⟩, [⟨coinId ⟨0, 0⟩ 0⟩]⟩], [toMomento ⟨⟨0, 0⟩, [⟨coinId ⟨0, 0⟩ 0⟩]⟩]⟩
        (.depositBtn 0) []
        ((by decide : (0 : Nat) < 1)) (by decide) (RunOps.nil _)))

/-- C1: coin conservation fails in the program — a code bug.  The
`!duplicate` branch of `updateVisibleCaches` calls `spawnCache` twice for
a spawn-positive cell: the first call generates the coins and saves the
snapshot, the second restores the identical coin list, and both returned
cache objects stay live with their own popups (conjuncts 1-3: the cell is
spawn-positive and both calls return the same one-coin cache).  From that
day-one state — two caches at cell (0,0), each holding the same generated
coin `0:0#0` — the valid click sequence collect (first popup), deposit
(second popup), collect (second popup) runs `collectCoin`'s id filter on a
cache holding two same-id coins and deletes both while pushing a single
coin to the inventory: the multiset union of inventory and cache coins
shrinks (conjuncts 4-5). -/
theorem coin_conservation_violated :
    ((fun _ => mkRat 1 100) : String → ℚ) (luckKey ⟨0, 0⟩) < CACHE_SPAWN_PROBABILITY
      ∧ spawnCache (fun _ => mkRat 1 100) [] ⟨0, 0⟩
          = .ok (⟨⟨0, 0⟩, [⟨coinId ⟨0, 0⟩ 0⟩]⟩,
              storeSet [] (cellKey ⟨0, 0⟩) (toMomento ⟨⟨0, 0⟩, [⟨coinId ⟨0, 0⟩ 0⟩]⟩))
      ∧ spawnCache (fun _ => mkRat 1 100)
            (storeSet [] (cellKey ⟨0, 0⟩) (toMomento ⟨⟨0, 0⟩, [⟨coinId ⟨0, 0⟩ 0⟩]⟩))
            ⟨0, 0⟩
          = .ok (⟨⟨0, 0⟩, [⟨coinId ⟨0, 0⟩ 0⟩]⟩,
              storeSet [] (cellKey ⟨0, 0⟩) (toMomento ⟨⟨0, 0⟩, [⟨coinId ⟨0, 0⟩ 0⟩]⟩))
      ∧ RunOps
          ⟨[], [⟨⟨0, 0⟩, [⟨coinId ⟨0, 0⟩ 0⟩]⟩, ⟨⟨0, 0⟩, [⟨coinId ⟨0, 0⟩ 0⟩]⟩], []⟩
          [.collect 0 ⟨coinId ⟨0, 0⟩ 0⟩, .depositBtn 1, .collect 1 ⟨coinId ⟨0, 0⟩ 0⟩]
          ⟨[⟨coinId ⟨0, 0⟩ 0⟩], [⟨⟨0, 0⟩, []⟩, ⟨⟨0, 0⟩, []⟩], []⟩
      ∧ coinBag ⟨[⟨coinId ⟨0, 0⟩ 0⟩], [⟨⟨0, 0⟩, []⟩, ⟨⟨0, 0⟩, []⟩], []⟩
          ≠ coinBag ⟨[], [⟨⟨0, 0⟩, [⟨coinId ⟨0, 0⟩ 0⟩]⟩, ⟨⟨0, 0⟩, [⟨coinId ⟨0, 0⟩ 0⟩]⟩], []⟩ := by
  refine ⟨by decide, by decide, by decide, ?_, by decide⟩
  exact
    @RunOps.cons
      ⟨[], [⟨⟨0, 0⟩, [⟨coinId ⟨0, 0⟩ 0⟩]⟩, ⟨⟨0, 0⟩, [⟨coinId ⟨0, 0⟩ 0⟩]⟩], []⟩
      ⟨[⟨coinId ⟨0, 0⟩ 0⟩], [⟨⟨0, 0⟩, []⟩, ⟨⟨0, 0⟩, [⟨coinId ⟨0, 0⟩ 0⟩]⟩], []⟩
      ⟨[⟨coinId ⟨0, 0⟩ 0⟩], [⟨⟨0, 0⟩, []⟩, ⟨⟨0, 0⟩, []⟩], []⟩
      (.collect 0 ⟨coinId ⟨0, 0⟩ 0⟩) [.depositBtn 1, .collect 1 ⟨coinId ⟨0, 0⟩ 0⟩]
      ⟨⟨⟨0, 0⟩, [⟨coinId ⟨0, 0⟩ 0⟩]⟩, by decide, by decide⟩
      (by decide)
      (@RunOps.cons
        ⟨[⟨coinId ⟨0, 0⟩ 0⟩], [⟨⟨0, 0⟩, []⟩, ⟨⟨0, 0⟩, [⟨coinId ⟨0, 0⟩ 0⟩]⟩], []⟩
        ⟨[], [⟨⟨0, 0⟩, []⟩, ⟨⟨0, 0⟩, [⟨coinId ⟨0, 0⟩ 0⟩, ⟨coinId ⟨0, 0⟩ 0⟩]⟩], []⟩
        ⟨[⟨coinId ⟨0, 0⟩ 0⟩], [⟨⟨0, 0⟩, []⟩, ⟨⟨0, 0⟩, []⟩], []⟩
        (.depositBtn 1) [.collect 1 ⟨coinId ⟨0, 0⟩ 0⟩]
        ((by decide : (1 : Nat) < 2)) (by decide)
        (@RunOps.cons
          ⟨[], [⟨⟨0, 0⟩, []⟩, ⟨⟨0, 0⟩, [⟨coinId ⟨0, 0⟩ 0⟩, ⟨coinId ⟨0, 0⟩ 0⟩]⟩], []⟩
          ⟨[⟨coinId ⟨0, 0⟩ 0⟩], [⟨⟨0, 0⟩, []⟩, ⟨⟨0, 0⟩, []⟩], []⟩
          ⟨[⟨coinId ⟨0, 0⟩ 0⟩], [⟨⟨0, 0⟩, []⟩, ⟨⟨0, 0⟩, []⟩], []⟩
          (.collect 1 ⟨coinId ⟨0, 0⟩ 0⟩) []
          ⟨⟨⟨0, 0⟩, [⟨coinId ⟨0, 0⟩ 0⟩, ⟨coinId ⟨0, 0⟩ 0⟩]⟩, by decide, by decide⟩
          (by decide)
          (RunOps.nil _)))

/-- Shared round-trip fact used by the world-model proofs. -/
theorem roundtrip_aux (m : MCache) : fromMomentoCache (toMomento m) = .ok m :=
  parseMomento_enc m

theorem storeGet_set_self : ∀ (s : Store) (k v : String),
    storeGet (storeSet s k v) k = some v := by
  intro s k v
  induction s with
  | nil => simp [storeSet, storeGet]
  | cons p t ih =>
    obtain ⟨k', v'⟩ := p
    unfold storeSet
    by_cases hk : k' = k
    · rw [if_pos hk]
      simp [storeGet]
    · rw [if_neg hk]
      unfold storeGet
      rw [if_neg hk]
      exact ih

theorem storeGet_set_ne : ∀ (s : Store) (k v k' : String), k' ≠ k →
    storeGet (storeSet s k v) k' = storeGet s k' := by
  intro s k v k' hne
  induction s with
  | nil =>
    simp [storeSet, storeGet]
    intro h
    exact absurd h.symm hne
  | cons p t ih =>
    obtain ⟨k0, v0⟩ := p
    unfold storeSet
    by_cases hk : k0 = k
    · rw [if_pos hk]
      unfold storeGet
      have hne2 : ¬ k0 = k' := by
        rw [hk]
        exact fun h => hne h.symm
      rw [if_neg (fun h => hne h.symm), if_neg hne2]
    · rw [if_neg hk]
      unfold storeGet
      by_cases h0 : k0 = k'
      · rw [if_pos h0, if_pos h0]
      · rw [if_neg h0, if_neg h0]
        exact ih

/-- C5 counterexample: with the malformed snapshot string "oops" saved for
cell (2, 2), deserialization is a thrown parse exception, and `spawnCache`
propagates it rather than signalling a recoverable `CorruptSnapshot` and
regenerating the cell: its result is the propagated error, not any
regenerated cache. -/
theorem corrupt_snapshot_counterexample :
    fromMomentoCache ("oops") = .error .parse
      ∧ spawnCache (fun _ => 0) [(cellKey ⟨2, 2⟩, "oops")] ⟨2, 2⟩ = .error .parse :=
  ⟨by decide, by decide⟩

/-- C5 (amended): `fromMomento` performs no error handling; whenever the
saved snapshot of a cell fails to parse, `spawnCache` propagates the thrown
exception to its caller and the cell is not regenerated. -/
theorem corrupt_snapshot_propagates (luck : String → ℚ) {store : Store} {cell : Cell}
    {s : String} {e : JErr}
    (hsaved : storeGet store (cellKey cell) = some s)
    (hbad : fromMomentoCache s = .error e) :
    spawnCache luck store cell = .error e := by
  unfold spawnCache
  rw [hsaved]
  simp only []
  rw [hbad]
  rfl

/-- Witness for the amended C5 at a concrete corrupt store entry. -/
theorem corrupt_snapshot_propagates_witness :
    spawnCache (fun _ => 0) [(cellKey ⟨3, 3⟩, "garbage")] ⟨3, 3⟩ = .error .parse :=
  @corrupt_snapshot_propagates (fun _ => 0) [(cellKey ⟨3, 3⟩, "garbage")] ⟨3, 3⟩
    ("garbage") .parse (by decide) (by decide)

theorem findMemento_none (c : Cell) :
    ∀ (l : List String),
      (∀ m ∈ l, ∃ mc, fromMomentoCache m = .ok mc ∧ mc.cell ≠ c) →
      findMemento c l = .ok none := by
  intro l
  induction l with
  | nil => intro _; rfl
  | cons m rest ih =>
    intro h
    obtain ⟨mc, hmc, hne⟩ := h m (List.mem_cons_self m rest)
    unfold findMemento
    rw [hmc]
    simp only [Bind.bind, Except.bind]
    rw [if_neg hne]
    exact ih (fun m' hm' => h m' (List.mem_cons_of_mem m hm'))

theorem offsetsList_nodup (r : Nat) : (offsetsList r).Nodup := by
  unfold offsetsList
  apply List.Nodup.map
  · intro a b h
    simp only at h
    omega
  · exact List.nodup_range _

theorem windowCells_nodup (r : Nat) (lat lng : ℚ) : (windowCells r lat lng).Nodup := by
  unfold windowCells
  apply List.Nodup.map
  · intro d d' h
    simp only [Cell.mk.injEq] at h
    obtain ⟨h1, h2⟩ := h
    obtain ⟨d1, d2⟩ := d
    obtain ⟨d1', d2'⟩ := d'
    simp only [Prod.mk.injEq]
    omega
  · exact List.Nodup.product (offsetsList_nodup r) (offsetsList_nodup r)

/-- From a clean start (no saved snapshots for the window cells and no
tracked memento matching them), the cell loop of `updateVisibleCaches`
succeeds and appends exactly one fresh memento per spawn-positive cell, in
window order. -/
theorem updateLoop_clean (luck : String → ℚ) :
    ∀ (cells : List Cell) (st : WState),
      cells.Nodup →
      (∀ c ∈ cells, storeGet st.store (cellKey c) = none) →
      (∀ m ∈ st.visible, ∃ mc, fromMomentoCache m = .ok mc ∧ mc.cell ∉ cells) →
      ∃ store', updateLoop luck cells st
        = .ok ⟨store', st.visible ++ cells.filterMap
            (fun c => if luck (luckKey c) < CACHE_SPAWN_PROBABILITY
              then some (toMomento (freshCache luck c)) else none)⟩ := by
  intro cells
  induction cells with
  | nil =>
    intro st _ _ _
    exact ⟨st.store, by simp [updateLoop]⟩
  | cons c cs ih =>
    intro st hnd hstore hvis
    rw [List.nodup_cons] at hnd
    by_cases hs : luck (luckKey c) < CACHE_SPAWN_PROBABILITY
    · have hspawn : spawnCache luck st.store c
          = .ok (freshCache luck c,
              storeSet st.store (cellKey c) (toMomento (freshCache luck c))) := by
        unfold spawnCache
        rw [hstore c (List.mem_cons_self c cs)]
      have hfind : findMemento c st.visible = .ok none := by
        apply findMemento_none
        intro m hm
        obtain ⟨mc, hmc, hnotin⟩ := hvis m hm
        exact ⟨mc, hmc, fun hc => hnotin (hc ▸ List.mem_cons_self c cs)⟩
      have hspawn2 : spawnCache luck
          (storeSet st.store (cellKey c) (toMomento (freshCache luck c))) c
          = .ok (freshCache luck c,
              storeSet st.store (cellKey c) (toMomento (freshCache luck c))) := by
        unfold spawnCache
        rw [storeGet_set_self]
        simp only []
        rw [roundtrip_aux]
        rfl
      have hproc : processCell luck st c
          = .ok ⟨storeSet st.store (cellKey c) (toMomento (freshCache luck c)),
              st.visible ++ [toMomento (freshCache luck c)]⟩ := by
        unfold processCell
        rw [if_pos hs]
        simp only [Bind.bind, Except.bind]
        rw [hspawn]
        simp only []
        rw [hfind]
        simp only []
        rw [hspawn2]
      show ∃ store', (do
        let st' ← processCell luck st c
        updateLoop luck cs st') = _
      rw [hproc]
      simp only [Bind.bind, Except.bind]
      have hstep := ih ⟨storeSet st.store (cellKey c) (toMomento (freshCache luck c)),
          st.visible ++ [toMomento (freshCache luck c)]⟩ hnd.2
        (by
          intro c' hc'
          simp only []
          rw [storeGet_set_ne]
          · exact hstore c' (List.mem_cons_of_mem c hc')
          · intro heq
            exact hnd.1 (cellKey_injective heq ▸ hc'))
        (by
          intro m hm
          simp only [] at hm
          rcases List.mem_append.mp hm with hold | hnew
          · obtain ⟨mc, hmc, hnotin⟩ := hvis m hold
            exact ⟨mc, hmc, fun hc => hnotin (List.mem_cons_of_mem c hc)⟩
          · rw [List.mem_singleton] at hnew
            subst hnew
            exact ⟨freshCache luck c, roundtrip_aux _, by
              show (freshCache luck c).cell ∉ cs
              exact hnd.1⟩)
      obtain ⟨store', hstep⟩ := hstep
      refine ⟨store', ?_⟩
      rw [hstep]
      simp only [List.filterMap_cons, if_pos hs, List.append_assoc, List.singleton_append]
    · have hproc : processCell luck st c = .ok st := by
        unfold processCell
        rw [if_neg hs]
      show ∃ store', (do
        let st' ← processCell luck st c
        updateLoop luck cs st') = _
      rw [hproc]
      simp only [Bind.bind, Except.bind]
      have hstep := ih st hnd.2
        (fun c' hc' => hstore c' (List.mem_cons_of_mem c hc'))
        (fun m hm => by
          obtain ⟨mc, hmc, hnotin⟩ := hvis m hm
          exact ⟨mc, hmc, fun hc => hnotin (List.mem_cons_of_mem c hc)⟩)
      obtain ⟨store', hstep⟩ := hstep
      refine ⟨store', ?_⟩
      rw [hstep]
      simp only [List.filterMap_cons, if_neg hs]

theorem freshCache_cell (luck : String → ℚ) (c : Cell) : (freshCache luck c).cell = c := rfl

/-- C6: starting a session with empty storage and no tracked mementos, a
cache is materialized in the visibility window exactly for the cells whose
generator value is strictly below the spawn probability (one memento per
such cell, in window order); and a cache generated fresh (no prior
snapshot) starts with exactly `floor(luck(cellKey) * 100)` coins whose ids
are `{i}:{j}#{k}` for `k = 0 .. count-1`. -/
theorem spawn_decision_and_fresh_generation :
    (∀ (luck : String → ℚ) (lat lng : ℚ),
      ∃ st', updateVisibleCaches luck lat lng ⟨[], []⟩ = .ok st'
        ∧ st'.visible = (windowCells NEIGHBORHOOD_SIZE lat lng).filterMap
            (fun c => if luck (luckKey c) < CACHE_SPAWN_PROBABILITY
              then some (toMomento (freshCache luck c)) else none)
        ∧ ∀ cell : Cell,
            (∃ m ∈ st'.visible, ∃ mc, fromMomentoCache m = .ok mc ∧ mc.cell = cell)
              ↔ cell ∈ windowCells NEIGHBORHOOD_SIZE lat lng
                  ∧ luck (luckKey cell) < CACHE_SPAWN_PROBABILITY)
    ∧ ∀ (luck : String → ℚ) (store : Store) (cell : Cell),
        storeGet store (cellKey cell) = none →
          spawnCache luck store cell
            = .ok (⟨cell, (List.range (⌊luck (luckKey cell) * (100 : ℚ)⌋).toNat).map
                  (fun k => ⟨coinId cell k⟩)⟩,
                storeSet store (cellKey cell) (toMomento (freshCache luck cell))) := by
  constructor
  · intro luck lat lng
    obtain ⟨store', heq⟩ := updateLoop_clean luck (windowCells NEIGHBORHOOD_SIZE lat lng)
      ⟨[], []⟩ (windowCells_nodup _ lat lng) (fun c _ => rfl) (fun m hm => absurd hm (by simp))
    refine ⟨⟨store', (windowCells NEIGHBORHOOD_SIZE lat lng).filterMap
      (fun c => if luck (luckKey c) < CACHE_SPAWN_PROBABILITY
        then some (toMomento (freshCache luck c)) else none)⟩, ?_, rfl, ?_⟩
    · unfold updateVisibleCaches
      rw [heq]
      rfl
    · intro cell
      constructor
      · rintro ⟨m, hm, mc, hmc, hcell⟩
        simp only at hm
        obtain ⟨c0, hc0, hfn⟩ := List.mem_filterMap.mp hm
        by_cases hs : luck (luckKey c0) < CACHE_SPAWN_PROBABILITY
        · rw [if_pos hs] at hfn
          injection hfn with hfn
          subst hfn
          rw [roundtrip_aux] at hmc
          injection hmc with hmc
          subst hmc
          rw [← hcell]
          exact ⟨hc0, hs⟩
        · rw [if_neg hs] at hfn
          cases hfn
      · rintro ⟨hcin, hsp⟩
        refine ⟨toMomento (freshCache luck cell), ?_, freshCache luck cell,
          roundtrip_aux _, rfl⟩
        simp only
        exact List.mem_filterMap.mpr ⟨cell, hcin, by rw [if_pos hsp]⟩
  · intro luck store cell hnone
    unfold spawnCache
    rw [hnone]
    have hfc : freshCache luck cell
        = ⟨cell, (List.range (⌊luck (luckKey cell) * (100 : ℚ)⌋).toNat).map
            (fun k => ⟨coinId cell k⟩)⟩ := by
      unfold freshCache genCoins
      rw [numCoinsFor_eq]
    rw [hfc]

/-- Witness for C6: with a generator constantly 1 no cell spawns and the
visible set stays empty; with a generator constantly 0 and an empty store,
`spawnCache` takes the fresh branch. -/
theorem spawn_decision_witness :
    (∃ st', updateVisibleCaches (fun _ => mkRat 1 1) 0 0 ⟨[], []⟩ = .ok st'
        ∧ st'.visible = [])
      ∧ spawnCache (fun _ => mkRat 0 1) [] ⟨0, 0⟩
          = .ok (⟨⟨0, 0⟩, (List.range
                ((⌊(fun (_ : String) => mkRat 0 1) (luckKey ⟨0, 0⟩) * (100 : ℚ)⌋).toNat)).map
                  (fun k => ⟨coinId ⟨0, 0⟩ k⟩)⟩,
              storeSet [] (cellKey ⟨0, 0⟩)
                (toMomento (freshCache (fun _ => mkRat 0 1) ⟨0, 0⟩))) := by
  constructor
  · obtain ⟨st', h1, h2, _⟩ :=
      spawn_decision_and_fresh_generation.1 (fun _ => mkRat 1 1) 0 0
    refine ⟨st', h1, ?_⟩
    rw [h2]
    decide
  · exact spawn_decision_and_fresh_generation.2 (fun _ => mkRat 0 1) [] ⟨0, 0⟩ rfl

set_option maxRecDepth 10000 in
/-- C3 (the code evaluated at the failing input): starting a fresh session
at position (0, 0) with a generator that spawns exactly cell (0, 0), one
`updateVisibleCaches` materializes the cache and records one memento; the
immediately following `updateVisibleCaches` at the unchanged position takes
the duplicate branch and pushes the same memento again, leaving two
`visibleCaches` entries whose parsed cell is (0, 0) — the duplicate-prevention
invariant does not hold. -/
theorem duplicate_visible_entry :
    ((updateVisibleCaches
        (fun k => if k = luckKey ⟨0, 0⟩ then mkRat 0 1 else mkRat 1 1) 0 0
        ⟨[], []⟩).bind
      (updateVisibleCaches
        (fun k => if k = luckKey ⟨0, 0⟩ then mkRat 0 1 else mkRat 1 1) 0 0))
      = .ok ⟨[(cellKey ⟨0, 0⟩, toMomento ⟨⟨0, 0⟩, []⟩)],
          [toMomento ⟨⟨0, 0⟩, []⟩, toMomento ⟨⟨0, 0⟩, []⟩]⟩
    ∧ List.countP
        (fun m => decide ((fromMomentoCache m).toOption.map MCache.cell
          = some (⟨0, 0⟩ : Cell)))
        [toMomento (⟨⟨0, 0⟩, []⟩ : MCache), toMomento (⟨⟨0, 0⟩, []⟩ : MCache)] = 2 := by
  constructor
  · decide
  · decide


theorem findMemento_some_sound (c : Cell) :
    ∀ (l : List String) (m : String),
      findMemento c l = .ok (some m) →
      m ∈ l ∧ ∃ mc, fromMomentoCache m = .ok mc ∧ mc.cell = c := by
  intro l
  induction l with
  | nil =>
    intro m h
    simp [findMemento] at h
  | cons m0 rest ih =>
    intro m h
    unfold findMemento at h
    cases hp : fromMomentoCache m0 with
    | error e =>
      rw [hp] at h
      simp [Bind.bind, Except.bind] at h
    | ok mc0 =>
      rw [hp] at h
      simp only [Bind.bind, Except.bind] at h
      by_cases hc : mc0.cell = c
      · rw [if_pos hc] at h
        injection h with h
        injection h with h
        subst h
        exact ⟨List.mem_cons_self m0 rest, mc0, hp, hc⟩
      · rw [if_neg hc] at h
        obtain ⟨hm, hrest⟩ := ih m h
        exact ⟨List.mem_cons_of_mem m0 hm, hrest⟩

theorem findMemento_none_sound (c : Cell) :
    ∀ (l : List String),
      findMemento c l = .ok none →
      ∀ μ ∈ l, ∀ mc, fromMomentoCache μ = .ok mc → mc.cell ≠ c := by
  intro l
  induction l with
  | nil =>
    intro _ μ hμ
    cases hμ
  | cons m0 rest ih =>
    intro h μ hμ mc hmc
    unfold findMemento at h
    cases hp : fromMomentoCache m0 with
    | error e =>
      rw [hp] at h
      simp [Bind.bind, Except.bind] at h
    | ok mc0 =>
      rw [hp] at h
      simp only [Bind.bind, Except.bind] at h
      by_cases hc : mc0.cell = c
      · rw [if_pos hc] at h
        simp at h
      · rw [if_neg hc] at h
        cases hμ with
        | head =>
          rw [hp] at hmc
          injection hmc with hmc
          rw [← hmc]
          exact hc
        | tail _ hμ' => exact ih h μ hμ' mc hmc

theorem spawnCache_ok_store {luck : String → ℚ} {store : Store} {c : Cell}
    {mc : MCache} {store' : Store}
    (h : spawnCache luck store c = .ok (mc, store')) :
    (∀ k v, storeGet store k = some v → storeGet store' k = some v)
      ∧ ∃ v, storeGet store' (cellKey c) = some v ∧ fromMomentoCache v = .ok mc := by
  unfold spawnCache at h
  cases hs : storeGet store (cellKey c) with
  | some saved =>
    rw [hs] at h
    simp only [] at h
    cases hp : fromMomentoCache saved with
    | error e => rw [hp] at h; cases h
    | ok mc0 =>
      rw [hp] at h
      injection h with h
      injection h with h1 h2
      subst h2
      refine ⟨fun k v hv => hv, saved, hs, by rw [hp, h1]⟩
  | none =>
    rw [hs] at h
    injection h with h
    injection h with h1 h2
    subst h1
    subst h2
    constructor
    · intro k v hv
      by_cases hk : k = cellKey c
      · rw [hk] at hv
        rw [hv] at hs
        cases hs
      · rw [storeGet_set_ne _ _ _ _ hk]
        exact hv
    · exact ⟨toMomento (freshCache luck c), storeGet_set_self _ _ _, roundtrip_aux _⟩

theorem spawnCache_restore {luck : String → ℚ} {store : Store} {c : Cell}
    {v : String} {mc : MCache}
    (hv : storeGet store (cellKey c) = some v)
    (hp : fromMomentoCache v = .ok mc) :
    spawnCache luck store c = .ok (mc, store) := by
  unfold spawnCache
  rw [hv]
  simp only []
  rw [hp]
  rfl

/-- Coverage of a cell by a post-update state: the durable store holds a
parseable snapshot for it, and the memento list either contains an entry
whose parsed cell matches it or contains the re-serialization of the stored
snapshot. -/
def Covers (stR : WState) (c : Cell) : Prop :=
  ∃ v mc, storeGet stR.store (cellKey c) = some v ∧ fromMomentoCache v = .ok mc ∧
    ((∃ μ ∈ stR.visible, ∃ mcμ, fromMomentoCache μ = .ok mcμ ∧ mcμ.cell = c)
      ∨ toMomento mc ∈ stR.visible)

theorem exceptBind_ok_iff {α β : Type} (e : Except JErr α) (k : α → Except JErr β) (b : β) :
    (Except.bind e k) = .ok b ↔ ∃ a, e = .ok a ∧ k a = .ok b := by
  cases e with
  | error err => simp [Except.bind]
  | ok a => simp [Except.bind]

theorem updateLoop_facts (luck : String → ℚ) :
    ∀ (cells : List Cell) (st st₁ : WState),
      updateLoop luck cells st = .ok st₁ →
      (∃ A, st₁.visible = st.visible ++ A) ∧
      (∀ k v, storeGet st.store k = some v → storeGet st₁.store k = some v) ∧
      (∀ c ∈ cells, luck (luckKey c) < CACHE_SPAWN_PROBABILITY → Covers st₁ c) := by
  intro cells
  induction cells with
  | nil =>
    intro st st₁ h
    injection h with h
    subst h
    exact ⟨⟨[], by simp⟩, fun k v hv => hv, fun c hc => absurd hc (by simp)⟩
  | cons c cs ih =>
    intro st st₁ h
    unfold updateLoop at h
    rw [except_bind_ok_iff] at h
    obtain ⟨st', hproc, hrest⟩ := h
    obtain ⟨⟨A, hA⟩, hpers, hcov⟩ := ih st' st₁ hrest
    unfold processCell at hproc
    by_cases hs : luck (luckKey c) < CACHE_SPAWN_PROBABILITY
    · rw [if_pos hs] at hproc
      simp only [Bind.bind] at hproc
      rw [exceptBind_ok_iff] at hproc
      obtain ⟨⟨cur, store₁⟩, hsp1, hproc⟩ := hproc
      simp only [] at hproc
      rw [exceptBind_ok_iff] at hproc
      obtain ⟨m?, hfind, hproc⟩ := hproc
      obtain ⟨hpers1, v, hv, hpv⟩ := spawnCache_ok_store hsp1
      cases m? with
      | some m =>
        simp only [] at hproc
        injection hproc with hproc
        obtain ⟨hmem, mcμ, hpμ, hcμ⟩ := findMemento_some_sound c st.visible m hfind
        subst hproc
        refine ⟨⟨[m] ++ A, by rw [hA]; simp⟩,
          fun k w hw => hpers k w (hpers1 k w hw), ?_⟩
        intro c' hc' hs'
        cases hc' with
        | head =>
          refine ⟨v, cur, hpers _ _ hv, hpv, Or.inl ⟨m, ?_, mcμ, hpμ, hcμ⟩⟩
          rw [hA]
          exact List.mem_append_left A (List.mem_append_right st.visible
            (List.mem_singleton.mpr rfl))
        | tail _ hc' => exact hcov c' hc' hs'
      | none =>
        simp only [] at hproc
        rw [exceptBind_ok_iff] at hproc
        obtain ⟨⟨mc₂, store₂⟩, hsp2, hproc⟩ := hproc
        simp only [] at hproc
        injection hproc with hproc
        obtain ⟨hpers2, v₂, hv₂, hpv₂⟩ := spawnCache_ok_store hsp2
        subst hproc
        refine ⟨⟨[toMomento mc₂] ++ A, by rw [hA]; simp⟩,
          fun k w hw => hpers k w (hpers2 k w (hpers1 k w hw)), ?_⟩
        intro c' hc' hs'
        cases hc' with
        | head =>
          refine ⟨v₂, mc₂, hpers _ _ hv₂, hpv₂, Or.inr ?_⟩
          rw [hA]
          exact List.mem_append_left A (List.mem_append_right st.visible
            (List.mem_singleton.mpr rfl))
        | tail _ hc' => exact hcov c' hc' hs'
    · rw [if_neg hs] at hproc
      injection hproc with hproc
      subst hproc
      refine ⟨⟨A, hA⟩, hpers, ?_⟩
      intro c' hc' hs'
      cases hc' with
      | head => exact absurd hs' hs
      | tail _ hc' => exact hcov c' hc' hs'

theorem updateLoop_second (luck : String → ℚ) (st₁ : WState) :
    ∀ (cells : List Cell) (stc st₂ : WState),
      updateLoop luck cells stc = .ok st₂ →
      (∀ c ∈ cells, luck (luckKey c) < CACHE_SPAWN_PROBABILITY → Covers st₁ c) →
      stc.store = st₁.store →
      (∃ B, stc.visible = st₁.visible ++ B ∧ ∀ b ∈ B, b ∈ st₁.visible) →
      st₂.store = st₁.store
        ∧ ∃ B₂, st₂.visible = st₁.visible ++ B₂ ∧ ∀ b ∈ B₂, b ∈ st₁.visible := by
  intro cells
  induction cells with
  | nil =>
    intro stc st₂ h hcov hstore hB
    injection h with h
    subst h
    exact ⟨hstore, hB⟩
  | cons c cs ih =>
    intro stc st₂ h hcov hstore hB
    obtain ⟨B, hBeq, hBsub⟩ := hB
    unfold updateLoop at h
    rw [except_bind_ok_iff] at h
    obtain ⟨st', hproc, hrest⟩ := h
    unfold processCell at hproc
    by_cases hs : luck (luckKey c) < CACHE_SPAWN_PROBABILITY
    · obtain ⟨v, mc, hv, hpv, hdisj⟩ := hcov c (List.mem_cons_self c cs) hs
      rw [if_pos hs] at hproc
      simp only [Bind.bind] at hproc
      rw [exceptBind_ok_iff] at hproc
      obtain ⟨⟨cur, store₁⟩, hsp1, hproc⟩ := hproc
      have hsp1' : spawnCache luck stc.store c = .ok (mc, stc.store) := by
        apply spawnCache_restore _ hpv
        rw [hstore]
        exact hv
      rw [hsp1'] at hsp1
      injection hsp1 with hsp1
      injection hsp1 with hcur hstore₁
      subst hcur
      subst hstore₁
      simp only [] at hproc
      rw [exceptBind_ok_iff] at hproc
      obtain ⟨m?, hfind, hproc⟩ := hproc
      cases m? with
      | some m =>
        simp only [] at hproc
        injection hproc with hproc
        have hmem := (findMemento_some_sound c stc.visible m hfind).1
        have hm₁ : m ∈ st₁.visible := by
          rw [hBeq] at hmem
          rcases List.mem_append.mp hmem with h1 | h2
          · exact h1
          · exact hBsub m h2
        subst hproc
        exact ih ⟨stc.store, stc.visible ++ [m]⟩ st₂ hrest
          (fun c' hc' => hcov c' (List.mem_cons_of_mem c hc'))
          hstore
          ⟨B ++ [m], by rw [hBeq]; simp, by
            intro b hb
            rcases List.mem_append.mp hb with h1 | h2
            · exact hBsub b h1
            · rw [List.mem_singleton.mp h2]
              exact hm₁⟩
      | none =>
        have hnomatch := findMemento_none_sound c stc.visible hfind
        cases hdisj with
        | inl hleft =>
          obtain ⟨μ, hμ, mcμ, hpμ, hcμ⟩ := hleft
          exfalso
          apply hnomatch μ ?_ mcμ hpμ hcμ
          rw [hBeq]
          exact List.mem_append_left B hμ
        | inr hright =>
          simp only [] at hproc
          rw [exceptBind_ok_iff] at hproc
          obtain ⟨⟨mc₂, store₂⟩, hsp2, hproc⟩ := hproc
          have hsp2' : spawnCache luck stc.store c = .ok (mc, stc.store) := by
            apply spawnCache_restore _ hpv
            rw [hstore]
            exact hv
          rw [hsp2'] at hsp2
          injection hsp2 with hsp2
          injection hsp2 with hmc₂ hstore₂
          subst hmc₂
          subst hstore₂
          simp only [] at hproc
          injection hproc with hproc
          subst hproc
          exact ih ⟨stc.store, stc.visible ++ [toMomento mc]⟩ st₂ hrest
            (fun c' hc' => hcov c' (List.mem_cons_of_mem c hc'))
            hstore
            ⟨B ++ [toMomento mc], by rw [hBeq]; simp, by
              intro b hb
              rcases List.mem_append.mp hb with h1 | h2
              · exact hBsub b h1
              · rw [List.mem_singleton.mp h2]
                exact hright⟩
    · rw [if_neg hs] at hproc
      injection hproc with hproc
      subst hproc
      exact ih stc st₂ hrest (fun c' hc' => hcov c' (List.mem_cons_of_mem c hc'))
        hstore ⟨B, hBeq, hBsub⟩

/-- C8: calling the visibility-window recompute twice in succession at the
same player position, with no intervening movement or coin transfer,
produces the same visible-cache set both times: the second call only ever
re-pushes mementos that are already tracked, so the set of `visibleCaches`
entries is unchanged (the recompute is idempotent on the visible-cache
set). -/
theorem update_idempotent (luck : String → ℚ) (lat lng : ℚ) (st st₁ st₂ : WState)
    (h1 : updateVisibleCaches luck lat lng st = .ok st₁)
    (h2 : updateVisibleCaches luck lat lng st₁ = .ok st₂) :
    st₂.visible.toFinset = st₁.visible.toFinset := by
  have h1' : updateLoop luck (windowCells NEIGHBORHOOD_SIZE lat lng) st = .ok st₁ := h1
  have h2' : updateLoop luck (windowCells NEIGHBORHOOD_SIZE lat lng) st₁ = .ok st₂ := h2
  have hfacts := updateLoop_facts luck (windowCells NEIGHBORHOOD_SIZE lat lng) st st₁ h1'
  have hsecond := updateLoop_second luck st₁ (windowCells NEIGHBORHOOD_SIZE lat lng)
    st₁ st₂ h2' hfacts.2.2 rfl ⟨[], by simp, by simp⟩
  obtain ⟨_, B₂, hB₂, hsub⟩ := hsecond
  rw [hB₂, List.toFinset_append]
  apply Finset.union_eq_left.mpr
  intro b hb
  rw [List.mem_toFinset] at hb ⊢
  exact hsub b hb

set_option maxRecDepth 10000 in
/-- Witness for C8: concrete double update with exactly cell (0, 0)
spawning; the second call duplicates the memento entry but the set of
entries is unchanged. -/
theorem update_idempotent_witness :
    ([toMomento (⟨⟨0, 0⟩, []⟩ : MCache), toMomento (⟨⟨0, 0⟩, []⟩ : MCache)] :
        List String).toFinset
      = ([toMomento (⟨⟨0, 0⟩, []⟩ : MCache)] : List String).toFinset :=
  update_idempotent
    (fun k => if k = luckKey ⟨0, 0⟩ then mkRat 0 1 else mkRat 1 1) 0 0
    ⟨[], []⟩
    ⟨[(cellKey ⟨0, 0⟩, toMomento ⟨⟨0, 0⟩, []⟩)], [toMomento ⟨⟨0, 0⟩, []⟩]⟩
    ⟨[(cellKey ⟨0, 0⟩, toMomento ⟨⟨0, 0⟩, []⟩)],
      [toMomento ⟨⟨0, 0⟩, []⟩, toMomento ⟨⟨0, 0⟩, []⟩]⟩
    (by decide) (by decide)

/-- A cell object as JavaScript references it: coordinates plus an
allocation tag modelling reference identity.  Two expressions denote the
same object reference exactly when they are equal tags included; value
equality of coordinates does not imply identity. -/
structure CellObj where
  tag : Nat
  i : Int
  j : Int
deriving DecidableEq

/-- The `Board` class of `board.ts`: the configured `tileWidth` and
`tileVisibilityRadius`, the `knownCells` interning registry, and an
allocation counter for object tags. -/
structure BoardSt where
  tileWidth : ℚ
  radius : Nat
  known : List (String × CellObj)
  next : Nat
deriving DecidableEq

/-- The `Board` constructor. -/
def boardNew (tw : ℚ) (r : Nat) : BoardSt := ⟨tw, r, [], 0⟩

/-- Registry key of a cell: the template string `${i},${j}` of
`getCanonicalCell` (the same format as `luckKey`). -/
def cellObjKey (i j : Int) : String := luckKey ⟨i, j⟩

def lookupKnown : List (String × CellObj) → String → Option CellObj
  | [], _ => none
  | (k, c) :: t, key => if k = key then some c else lookupKnown t key

/-- The `Board.getCanonicalCell`: look the key up in `knownCells`, register a
newly allocated object when absent, and return the registered object. -/
def getCanonicalCell (b : BoardSt) (i j : Int) : CellObj × BoardSt :=
  match lookupKnown b.known (cellObjKey i j) with
  | some c => (c, b)
  | none =>
      let c : CellObj := ⟨b.next, i, j⟩
      (c, ⟨b.tileWidth, b.radius, b.known ++ [(cellObjKey i j, c)], b.next + 1⟩)

/-- The `Board.getCellForPoint`.  Note that the source hard-codes the `1e4`
factor (`Math.floor(point.lat * 1e4)`); the configured `tileWidth` is not
consulted. -/
def getCellForPoint (b : BoardSt) (lat lng : ℚ) : CellObj × BoardSt :=
  getCanonicalCell b (Rat.floor (mulByNat lat 10000)) (Rat.floor (mulByNat lng 10000))

/-- Canonicalize a list of coordinates in order, threading the board. -/
def getCanonList (b : BoardSt) : List (Int × Int) → List CellObj × BoardSt
  | [] => ([], b)
  | (i, j) :: rest =>
      let r₁ := getCanonicalCell b i j
      let r₂ := getCanonList r₁.2 rest
      (r₁.1 :: r₂.1, r₂.2)

/-- The translated offset window as coordinate pairs, in exactly the order
the `getCellsNearPoint` double loop pushes them. -/
def pairWindow (r : Nat) (oi oj : Int) : List (Int × Int) :=
  (offsetsList r ×ˢ offsetsList r).map (fun d => (oi + d.1, oj + d.2))

/-- The `Board.getCellsNearPoint`: the canonical origin cell plus the row-major
double loop over offsets `-radius .. radius`, every cell canonicalized. -/
def getCellsNearPoint (b : BoardSt) (lat lng : ℚ) : List CellObj × BoardSt :=
  let r₁ := getCellForPoint b lat lng
  getCanonList r₁.2 (pairWindow r₁.2.radius r₁.1.i r₁.1.j)

/-- Well-formedness of a board: every registry entry is stored under the
key computed from its own coordinates tick, and carries a tag allocated in
the past. -/
def WFB (b : BoardSt) : Prop :=
  ∀ kv ∈ b.known, kv.1 = cellObjKey kv.2.i kv.2.j ∧ kv.2.tag < b.next

instance (b : BoardSt) : Decidable (WFB b) := by
  unfold WFB
  infer_instance

theorem cellObjKey_injective {i j i' j' : Int} (h : cellObjKey i j = cellObjKey i' j') :
    i = i' ∧ j = j' := by
  have := luckKey_injective h
  injection this with h1 h2
  exact ⟨h1, h2⟩

theorem lookupKnown_mem : ∀ (l : List (String × CellObj)) (key : String) (c : CellObj),
    lookupKnown l key = some c → (key, c) ∈ l := by
  intro l
  induction l with
  | nil => intro key c h; cases h
  | cons p t ih =>
    intro key c h
    obtain ⟨k0, c0⟩ := p
    unfold lookupKnown at h
    by_cases hk : k0 = key
    · rw [if_pos hk] at h
      injection h with h
      subst h
      subst hk
      exact List.mem_cons_self _ _
    · rw [if_neg hk] at h
      exact List.mem_cons_of_mem _ (ih key c h)

theorem lookupKnown_cons (k0 : String) (c0 : CellObj) (t : List (String × CellObj))
    (key : String) :
    lookupKnown ((k0, c0) :: t) key = if k0 = key then some c0 else lookupKnown t key := rfl

theorem lookupKnown_append_left :
    ∀ (l l₂ : List (String × CellObj)) (key : String) (c : CellObj),
      lookupKnown l key = some c → lookupKnown (l ++ l₂) key = some c := by
  intro l l₂
  induction l with
  | nil => intro key c h; cases h
  | cons p t ih =>
    intro key c h
    obtain ⟨k0, c0⟩ := p
    rw [lookupKnown_cons] at h
    rw [List.cons_append, lookupKnown_cons]
    by_cases hk : k0 = key
    · rwa [if_pos hk] at h ⊢
    · rw [if_neg hk] at h ⊢
      exact ih key c h

theorem lookupKnown_append_absent :
    ∀ (l : List (String × CellObj)) (key : String) (c : CellObj),
      lookupKnown l key = none → lookupKnown (l ++ [(key, c)]) key = some c := by
  intro l
  induction l with
  | nil =>
    intro key c _
    rw [List.nil_append, lookupKnown_cons, if_pos rfl]
  | cons p t ih =>
    intro key c h
    obtain ⟨k0, c0⟩ := p
    rw [lookupKnown_cons] at h
    rw [List.cons_append, lookupKnown_cons]
    by_cases hk : k0 = key
    · rw [if_pos hk] at h
      cases h
    · rw [if_neg hk] at h ⊢
      exact ih key c h

theorem getCanonicalCell_spec {b : BoardSt} {i j : Int} {c : CellObj} {b' : BoardSt}
    (hwf : WFB b) (h : getCanonicalCell b i j = (c, b')) :
    c.i = i ∧ c.j = j ∧ WFB b'
      ∧ lookupKnown b'.known (cellObjKey i j) = some c
      ∧ (∀ k v, lookupKnown b.known k = some v → lookupKnown b'.known k = some v)
      ∧ b'.tileWidth = b.tileWidth ∧ b'.radius = b.radius ∧ b.next ≤ b'.next := by
  unfold getCanonicalCell at h
  cases hl : lookupKnown b.known (cellObjKey i j) with
  | some c0 =>
    rw [hl] at h
    injection h with h1 h2
    subst h1
    subst h2
    have hmem := lookupKnown_mem _ _ _ hl
    obtain ⟨hkey, _⟩ := hwf _ hmem
    obtain ⟨hi, hj⟩ := cellObjKey_injective hkey.symm
    have hi' : c0.i = i := hi
    have hj' : c0.j = j := hj
    exact ⟨hi', hj', hwf, hl, fun k v hv => hv, rfl, rfl, Nat.le_refl _⟩
  | none =>
    rw [hl] at h
    injection h with h1 h2
    subst h1
    subst h2
    refine ⟨rfl, rfl, ?_, ?_, ?_, rfl, rfl, Nat.le_succ _⟩
    · intro kv hkv
      simp only [] at hkv
      rcases List.mem_append.mp hkv with hold | hnew
      · obtain ⟨hk, ht⟩ := hwf kv hold
        exact ⟨hk, Nat.lt_succ_of_lt ht⟩
      · rw [List.mem_singleton.mp hnew]
        exact ⟨rfl, Nat.lt_succ_self _⟩
    · exact lookupKnown_append_absent _ _ _ hl
    · intro k v hv
      exact lookupKnown_append_left _ _ _ _ hv

theorem getCanonList_spec :
    ∀ (ps : List (Int × Int)) (b : BoardSt) (cs : List CellObj) (b' : BoardSt),
      WFB b → getCanonList b ps = (cs, b') →
      WFB b' ∧ cs.map (fun c => (c.i, c.j)) = ps
        ∧ (∀ c ∈ cs, lookupKnown b'.known (cellObjKey c.i c.j) = some c)
        ∧ (∀ k v, lookupKnown b.known k = some v → lookupKnown b'.known k = some v)
        ∧ b'.tileWidth = b.tileWidth ∧ b'.radius = b.radius := by
  intro ps
  induction ps with
  | nil =>
    intro b cs b' hwf h
    injection h with h1 h2
    subst h1
    subst h2
    exact ⟨hwf, rfl, fun c hc => absurd hc (by simp), fun k v hv => hv, rfl, rfl⟩
  | cons p rest ih =>
    intro b cs b' hwf h
    obtain ⟨i, j⟩ := p
    unfold getCanonList at h
    rcases hgc : getCanonicalCell b i j with ⟨c0, b₁⟩
    rw [hgc] at h
    simp only [] at h
    rcases hgl : getCanonList b₁ rest with ⟨cs', b₂⟩
    rw [hgl] at h
    injection h with h1 h2
    subst h1
    subst h2
    obtain ⟨hi, hj, hwf₁, hreg, hpers₁, htw₁, hr₁, _⟩ := getCanonicalCell_spec hwf hgc
    obtain ⟨hwf₂, hmap, hregs, hpers₂, htw₂, hr₂⟩ := ih b₁ cs' b₂ hwf₁ hgl
    refine ⟨hwf₂, ?_, ?_, fun k v hv => hpers₂ k v (hpers₁ k v hv),
      htw₂.trans htw₁, hr₂.trans hr₁⟩
    · rw [List.map_cons, hmap, hi, hj]
    · intro c hc
      cases hc with
      | head =>
        rw [hi, hj]
        exact hpers₂ _ _ hreg
      | tail _ hc => exact hregs c hc

theorem offsetsList_mem (r : Nat) (a : Int) :
    a ∈ offsetsList r ↔ -(r : Int) ≤ a ∧ a ≤ (r : Int) := by
  unfold offsetsList
  simp only [List.mem_map, List.mem_range]
  constructor
  · rintro ⟨n, hn, rfl⟩
    omega
  · intro h
    exact ⟨(a + r).toNat, by omega, by omega⟩

theorem pairWindow_length (r : Nat) (oi oj : Int) :
    (pairWindow r oi oj).length = (2 * r + 1) ^ 2 := by
  unfold pairWindow offsetsList
  rw [List.length_map, List.length_product, List.length_map, List.length_range]
  ring

theorem pairWindow_nodup (r : Nat) (oi oj : Int) : (pairWindow r oi oj).Nodup := by
  unfold pairWindow
  apply List.Nodup.map
  · intro d d' h
    simp only [Prod.mk.injEq] at h
    obtain ⟨h1, h2⟩ := h
    obtain ⟨d1, d2⟩ := d
    obtain ⟨d1', d2'⟩ := d'
    simp only [Prod.mk.injEq]
    omega
  · exact List.Nodup.product (offsetsList_nodup r) (offsetsList_nodup r)

theorem pairWindow_mem (r : Nat) (oi oj : Int) (i j : Int) :
    (i, j) ∈ pairWindow r oi oj ↔ (i - oi).natAbs ≤ r ∧ (j - oj).natAbs ≤ r := by
  unfold pairWindow
  simp only [List.mem_map, List.mem_product, Prod.mk.injEq, Prod.exists]
  constructor
  · rintro ⟨d1, d2, ⟨hm1, hm2⟩, h1, h2⟩
    rw [offsetsList_mem] at hm1 hm2
    omega
  · intro h
    refine ⟨i - oi, j - oj, ⟨?_, ?_⟩, by omega, by omega⟩
    · rw [offsetsList_mem]
      omega
    · rw [offsetsList_mem]
      omega

theorem runBOp_aux_forPoint (b : BoardSt) (lat lng : ℚ) (c : CellObj) (b' : BoardSt)
    (hwf : WFB b) (h : getCellForPoint b lat lng = (c, b')) :
    c.i = Rat.floor (mulByNat lat 10000) ∧ c.j = Rat.floor (mulByNat lng 10000)
      ∧ WFB b' ∧ lookupKnown b'.known (cellObjKey c.i c.j) = some c
      ∧ (∀ k v, lookupKnown b.known k = some v → lookupKnown b'.known k = some v)
      ∧ b'.radius = b.radius := by
  unfold getCellForPoint at h
  obtain ⟨hi, hj, hwf', hreg, hpers, -, hr, -⟩ := getCanonicalCell_spec hwf h
  refine ⟨hi, hj, hwf', ?_, hpers, hr⟩
  rw [hi, hj]
  exact hreg

/-- The two cell-returning `Board` entry points, as an operation type
(`getCellBounds` only reads coordinates and neither allocates nor returns a
cell object). -/
inductive BOp where
  | forPoint (lat lng : ℚ)
  | near (lat lng : ℚ)

/-- Run one `Board` operation, returning the list of cell objects handed to
the caller together with the updated board. -/
def runBOp (b : BoardSt) : BOp → List CellObj × BoardSt
  | .forPoint lat lng =>
      match getCellForPoint b lat lng with
      | (c, b') => ([c], b')
  | .near lat lng => getCellsNearPoint b lat lng

theorem runBOp_spec (b : BoardSt) (op : BOp) (cs : List CellObj) (b' : BoardSt)
    (hwf : WFB b) (h : runBOp b op = (cs, b')) :
    WFB b' ∧ (∀ c ∈ cs, lookupKnown b'.known (cellObjKey c.i c.j) = some c)
      ∧ (∀ k v, lookupKnown b.known k = some v → lookupKnown b'.known k = some v) := by
  cases op with
  | forPoint lat lng =>
    unfold runBOp at h
    simp only [] at h
    rcases hg : getCellForPoint b lat lng with ⟨c0, b₁⟩
    rw [hg] at h
    simp only [] at h
    injection h with h1 h2
    subst h1
    subst h2
    obtain ⟨-, -, hwf₁, hreg, hpers, -⟩ := runBOp_aux_forPoint b lat lng c0 b₁ hwf hg
    refine ⟨hwf₁, ?_, hpers⟩
    intro c hc
    rw [List.mem_singleton] at hc
    subst hc
    exact hreg
  | near lat lng =>
    unfold runBOp at h
    simp only [] at h
    unfold getCellsNearPoint at h
    rcases hg : getCellForPoint b lat lng with ⟨c0, b₁⟩
    rw [hg] at h
    simp only [] at h
    obtain ⟨-, -, hwf₁, -, hpers₁, -⟩ := runBOp_aux_forPoint b lat lng c0 b₁ hwf hg
    obtain ⟨hwf₂, -, hregs, hpers₂, -, -⟩ := getCanonList_spec _ _ _ _ hwf₁ h
    exact ⟨hwf₂, hregs, fun k v hv => hpers₂ k v (hpers₁ k v hv)⟩

/-- C4 counterexample: on a board configured with `tileWidth = 1`,
`getCellForPoint` at latitude 3, longitude 0 returns the cell with row
index 30000 — `Math.floor(lat * 1e4)` with the hard-coded `1e4` — whereas
floor-division of the latitude by the configured tile width gives 3. -/
theorem cellForPoint_ignores_tileWidth :
    (getCellForPoint (boardNew 1 0) 3 0).1.i = 30000
      ∧ Rat.floor ((3 : ℚ) / (boardNew 1 0).tileWidth) = 3
      ∧ (30000 : Int) ≠ 3 := by
  refine ⟨by decide, ?_, by decide⟩
  have h : ((3 : ℚ) / (boardNew 1 0).tileWidth) = 3 := by
    norm_num [boardNew]
  rw [h, ratFloor_eq]
  norm_num

/-- C4 (amended): `getCellForPoint` is a total function of the point and
the board state, and on a well-formed board it returns the canonical cell
with coordinates `(⌊lat·10⁴⌋, ⌊lng·10⁴⌋)`: the `1e4` factor is hard-coded
in `Board.getCellForPoint`, so the mapping agrees with floor-division by
the configured tile width exactly when `tileWidth = 1/10⁴` (the value
`main.ts` passes as `TILE_DEGREES`), not for a general configuration. -/
theorem cellForPoint_floor (b : BoardSt) (lat lng : ℚ) (c : CellObj) (b' : BoardSt)
    (hwf : WFB b) (h : getCellForPoint b lat lng = (c, b')) :
    (c.i = ⌊lat * 10000⌋ ∧ c.j = ⌊lng * 10000⌋)
      ∧ (b.tileWidth = mkRat 1 10000 →
          c.i = ⌊lat / b.tileWidth⌋ ∧ c.j = ⌊lng / b.tileWidth⌋) := by
  obtain ⟨hi, hj, -, -, -, -⟩ := runBOp_aux_forPoint b lat lng c b' hwf h
  have hi' : c.i = ⌊lat * 10000⌋ := by
    rw [hi, ratFloor_eq, mulByNat_eq]
    norm_num
  have hj' : c.j = ⌊lng * 10000⌋ := by
    rw [hj, ratFloor_eq, mulByNat_eq]
    norm_num
  refine ⟨⟨hi', hj'⟩, ?_⟩
  intro htw
  have hdiv : ∀ q : ℚ, q / b.tileWidth = q * 10000 := by
    intro q
    rw [htw, Rat.mkRat_eq_div]
    push_cast
    rw [div_div_eq_mul_div, div_one]
  constructor
  · rw [hdiv lat]
    exact hi'
  · rw [hdiv lng]
    exact hj'

theorem cellForPoint_floor_witness :
    ((⟨0, 10000, 0⟩ : CellObj).i = ⌊(1 : ℚ) * 10000⌋
        ∧ (⟨0, 10000, 0⟩ : CellObj).j = ⌊(0 : ℚ) * 10000⌋)
      ∧ ((⟨0, 10000, 0⟩ : CellObj).i = ⌊(1 : ℚ) / (boardNew (mkRat 1 10000) 8).tileWidth⌋
        ∧ (⟨0, 10000, 0⟩ : CellObj).j = ⌊(0 : ℚ) / (boardNew (mkRat 1 10000) 8).tileWidth⌋) := by
  have h := cellForPoint_floor (boardNew (mkRat 1 10000) 8) 1 0 ⟨0, 10000, 0⟩
    ⟨mkRat 1 10000, 8, [(cellObjKey 10000 0, ⟨0, 10000, 0⟩)], 1⟩ (by decide) (by decide)
  exact ⟨h.1, h.2 rfl⟩

/-- C7: across any two `Board` operations run in sequence from a
well-formed board, two cell objects handed out by those calls are
identity-equal (allocation tag included) if and only if their `(i, j)`
coordinates agree — the `knownCells` registry hands out one canonical
instance per coordinate pair, so identity equality coincides with value
equality. -/
theorem canonical_cell_identity (b : BoardSt) (op₁ op₂ : BOp)
    (cs₁ : List CellObj) (b₁ : BoardSt) (cs₂ : List CellObj) (b₂ : BoardSt)
    (c₁ c₂ : CellObj) (hwf : WFB b)
    (h1 : runBOp b op₁ = (cs₁, b₁)) (h2 : runBOp b₁ op₂ = (cs₂, b₂))
    (hm1 : c₁ ∈ cs₁) (hm2 : c₂ ∈ cs₂) :
    c₁ = c₂ ↔ c₁.i = c₂.i ∧ c₁.j = c₂.j := by
  constructor
  · intro h
    rw [h]
    exact ⟨rfl, rfl⟩
  · rintro ⟨hi, hj⟩
    obtain ⟨hwf₁, hreg₁, -⟩ := runBOp_spec b op₁ cs₁ b₁ hwf h1
    obtain ⟨hwf₂, hreg₂, hpers₂⟩ := runBOp_spec b₁ op₂ cs₂ b₂ hwf₁ h2
    have ha := hpers₂ _ _ (hreg₁ c₁ hm1)
    have hb := hreg₂ c₂ hm2
    rw [hi, hj] at ha
    rw [ha] at hb
    exact Option.some.inj hb

theorem canonical_cell_identity_witness :
    ((⟨0, 5000, 5000⟩ : CellObj) = ⟨0, 5000, 5000⟩
      ↔ (⟨0, 5000, 5000⟩ : CellObj).i = (⟨0, 5000, 5000⟩ : CellObj).i
          ∧ (⟨0, 5000, 5000⟩ : CellObj).j = (⟨0, 5000, 5000⟩ : CellObj).j) := by
  have h := canonical_cell_identity (boardNew (mkRat 1 10000) 8)
    (.forPoint (mkRat 1 2) (mkRat 1 2)) (.forPoint (mkRat 1 2) (mkRat 1 2))
    [⟨0, 5000, 5000⟩] ⟨mkRat 1 10000, 8, [(cellObjKey 5000 5000, ⟨0, 5000, 5000⟩)], 1⟩
    [⟨0, 5000, 5000⟩] ⟨mkRat 1 10000, 8, [(cellObjKey 5000 5000, ⟨0, 5000, 5000⟩)], 1⟩
    ⟨0, 5000, 5000⟩ ⟨0, 5000, 5000⟩ (by decide) (by decide) (by decide)
    (by decide) (by decide)
  exact h

/-- C9: on a well-formed board, `getCellsNearPoint` returns exactly
`(2·radius+1)²` pairwise distinct cells — precisely those whose
coordinates lie within Chebyshev distance `radius` (inclusive) of the cell
containing the point — and every returned cell is the canonical interned
instance, registered under its key in the resulting registry. -/
theorem cells_near_window (b : BoardSt) (lat lng : ℚ) (cs : List CellObj) (b' : BoardSt)
    (hwf : WFB b) (h : getCellsNearPoint b lat lng = (cs, b')) :
    cs.length = (2 * b.radius + 1) ^ 2
      ∧ cs.Nodup
      ∧ (∀ i j : Int, (∃ c ∈ cs, c.i = i ∧ c.j = j)
          ↔ (i - (cellFloor lat lng).i).natAbs ≤ b.radius
            ∧ (j - (cellFloor lat lng).j).natAbs ≤ b.radius)
      ∧ ∀ c ∈ cs, lookupKnown b'.known (cellObjKey c.i c.j) = some c := by
  unfold getCellsNearPoint at h
  rcases hg : getCellForPoint b lat lng with ⟨c0, b₁⟩
  rw [hg] at h
  simp only [] at h
  obtain ⟨hi, hj, hwf₁, -, -, hr₁⟩ := runBOp_aux_forPoint b lat lng c0 b₁ hwf hg
  obtain ⟨hwf₂, hmap, hregs, hpers₂, -, -⟩ := getCanonList_spec _ _ _ _ hwf₁ h
  rw [hr₁] at hmap
  have hio : c0.i = (cellFloor lat lng).i := hi
  have hjo : c0.j = (cellFloor lat lng).j := hj
  have hlen : cs.length = (2 * b.radius + 1) ^ 2 := by
    have hl := congrArg List.length hmap
    rw [List.length_map] at hl
    rw [hl, pairWindow_length]
  have hnd : cs.Nodup := by
    have hpw := pairWindow_nodup b.radius c0.i c0.j
    rw [← hmap] at hpw
    exact List.Nodup.of_map _ hpw
  have hmem : ∀ i j : Int, (∃ c ∈ cs, c.i = i ∧ c.j = j)
      ↔ (i - c0.i).natAbs ≤ b.radius ∧ (j - c0.j).natAbs ≤ b.radius := by
    intro i j
    rw [← pairWindow_mem b.radius c0.i c0.j i j, ← hmap]
    simp only [List.mem_map]
    constructor
    · rintro ⟨c, hc, h1, h2⟩
      exact ⟨c, hc, by rw [h1, h2]⟩
    · rintro ⟨c, hc, hcc⟩
      rw [Prod.mk.injEq] at hcc
      exact ⟨c, hc, hcc.1, hcc.2⟩
  rw [hio, hjo] at hmem
  exact ⟨hlen, hnd, hmem, hregs⟩

set_option maxRecDepth 10000 in
theorem cells_near_window_witness :
    ([⟨1, -1, -1⟩, ⟨2, -1, 0⟩, ⟨3, -1, 1⟩, ⟨4, 0, -1⟩, ⟨0, 0, 0⟩, ⟨5, 0, 1⟩,
        ⟨6, 1, -1⟩, ⟨7, 1, 0⟩, ⟨8, 1, 1⟩] : List CellObj).length
        = (2 * (boardNew (mkRat 1 10000) 1).radius + 1) ^ 2
      ∧ ([⟨1, -1, -1⟩, ⟨2, -1, 0⟩, ⟨3, -1, 1⟩, ⟨4, 0, -1⟩, ⟨0, 0, 0⟩, ⟨5, 0, 1⟩,
        ⟨6, 1, -1⟩, ⟨7, 1, 0⟩, ⟨8, 1, 1⟩] : List CellObj).Nodup := by
  have h := cells_near_window (boardNew (mkRat 1 10000) 1) 0 0
    [⟨1, -1, -1⟩, ⟨2, -1, 0⟩, ⟨3, -1, 1⟩, ⟨4, 0, -1⟩, ⟨0, 0, 0⟩, ⟨5, 0, 1⟩,
      ⟨6, 1, -1⟩, ⟨7, 1, 0⟩, ⟨8, 1, 1⟩]
    ⟨mkRat 1 10000, 1,
      [(cellObjKey 0 0, ⟨0, 0, 0⟩), (cellObjKey (-1) (-1), ⟨1, -1, -1⟩),
        (cellObjKey (-1) 0, ⟨2, -1, 0⟩), (cellObjKey (-1) 1, ⟨3, -1, 1⟩),
        (cellObjKey 0 (-1), ⟨4, 0, -1⟩), (cellObjKey 0 1, ⟨5, 0, 1⟩),
        (cellObjKey 1 (-1), ⟨6, 1, -1⟩), (cellObjKey 1 0, ⟨7, 1, 0⟩),
        (cellObjKey 1 1, ⟨8, 1, 1⟩)], 9⟩
    (by decide) (by decide)
  exact ⟨h.1, h.2.1⟩

/-- The structural coordinate test the code applies to cells:
`refreshMemento` compares `this.cell.i == currCache.cell.i &&
this.cell.j == currCache.cell.j`, and the duplicate scan in
`updateVisibleCaches` compares `currentCache.cell.i === cell.i &&
currentCache.cell.j === cell.j`.  Both read coordinates only, never object
identity. -/
def cellMatch (a b : CellObj) : Bool := decide (a.i = b.i) && decide (a.j = b.j)

/-- The cell object a cache holds after `fromMomento`: the parsed
snapshot's `cell` field is a freshly allocated plain object — here tagged
with the current allocation counter — not a `Board.getCanonicalCell`
result. -/
def restoredCellObj (s : String) (n : Nat) : Option CellObj :=
  (fromMomentoCache s).toOption.map (fun mc => ⟨n, mc.cell.i, mc.cell.j⟩)

/-- C10: restoring a cache from a snapshot gives it a freshly allocated
cell object that is never identity-equal to the Board's canonical interned
cell for the same coordinates (every registered tag is strictly older than
the fresh one), yet the structural comparison the code uses accepts the
pair; `cellMatch` is by definition a function of the coordinates alone, so
every cache-to-cell comparison in the code is structural, not
identity-based. -/
theorem restored_cell_not_canonical (b : BoardSt) (s : String) (mc : MCache) (c : CellObj)
    (hwf : WFB b) (hp : fromMomentoCache s = Except.ok mc)
    (hreg : lookupKnown b.known (cellObjKey mc.cell.i mc.cell.j) = some c) :
    restoredCellObj s b.next = some ⟨b.next, mc.cell.i, mc.cell.j⟩
      ∧ (⟨b.next, mc.cell.i, mc.cell.j⟩ : CellObj) ≠ c
      ∧ cellMatch ⟨b.next, mc.cell.i, mc.cell.j⟩ c = true
      ∧ (∀ a a' : CellObj, cellMatch a a' = (decide (a.i = a'.i) && decide (a.j = a'.j))) := by
  obtain ⟨hkey, htag⟩ := hwf _ (lookupKnown_mem _ _ _ hreg)
  have htag' : c.tag < b.next := htag
  have hkey' : cellObjKey mc.cell.i mc.cell.j = cellObjKey c.i c.j := hkey
  obtain ⟨hi, hj⟩ := cellObjKey_injective hkey'
  refine ⟨?_, ?_, ?_, fun a a' => rfl⟩
  · unfold restoredCellObj
    rw [hp]
    rfl
  · intro he
    have htg : b.next = c.tag := congrArg CellObj.tag he
    omega
  · simp [cellMatch, hi, hj]

theorem restored_cell_not_canonical_witness :
    restoredCellObj (toMomento ⟨⟨0, 0⟩, []⟩) 1 = some ⟨1, 0, 0⟩
      ∧ (⟨1, 0, 0⟩ : CellObj) ≠ ⟨0, 0, 0⟩
      ∧ cellMatch ⟨1, 0, 0⟩ ⟨0, 0, 0⟩ = true := by
  have h := restored_cell_not_canonical
    ⟨mkRat 1 10000, 8, [(cellObjKey 0 0, ⟨0, 0, 0⟩)], 1⟩
    (toMomento ⟨⟨0, 0⟩, []⟩) ⟨⟨0, 0⟩, []⟩ ⟨0, 0, 0⟩
    (by decide) (by decide) (by decide)
  exact ⟨h.1, h.2.1, h.2.2.1⟩

end Game
